import Mathlib

/-!
Shallow embedding of the Guitar Trainer application
(`src/guitar_trainer_0.1.py`, class `ModernGuitarTrainerV2`).

Python strings are modelled as `List Char`; Python integers as `Int`
(with `Int.fdiv`/`Int.fmod` for Python's floor `//` and `%`, which agree
with Python for the positive divisors used by the program); Python code
that can raise an exception is modelled with `Option`.  Tk rendering,
sounds, threads and the real clock are external collaborators: timestamps
produced by `datetime.now()` enter the model as explicit parameters.
-/

namespace GuitarTrainer

/-- Python strings, modelled as lists of characters. -/
abbrev PyStr := List Char

/-- Python `str.split(sep)` for a one-character separator: splits at every
occurrence and keeps empty fields, so `"".split(c) == [""]` and the result
always has one more field than there are separators. -/
def pySplit (c : Char) : PyStr → List PyStr
  | [] => [[]]
  | ch :: rest =>
    match pySplit c rest with
    | [] => [[]]
    | f :: fs => if ch = c then [] :: f :: fs else (ch :: f) :: fs

/-- Joining fields back with the separator; the left inverse of `pySplit`
(used only to reason about it). -/
def joinSep (c : Char) : List PyStr → PyStr
  | [] => []
  | [x] => x
  | x :: y :: xs => x ++ c :: joinSep c (y :: xs)

/-- The whitespace characters stripped by Python `str.strip()`. -/
def pyIsSpace (c : Char) : Bool :=
  c = ' ' || c = '\t' || c = '\n' || c = '\r' || c = '\x0b' || c = '\x0c'

/-- Python `str.strip()` with no argument: removes leading and trailing
whitespace. -/
def pyStrip (s : PyStr) : PyStr :=
  ((s.dropWhile pyIsSpace).reverse.dropWhile pyIsSpace).reverse

/-- Python's substring test `pat in s`. -/
def hasSub (pat : PyStr) : PyStr → Bool
  | [] => pat.isEmpty
  | c :: rest => pat.isPrefixOf (c :: rest) || hasSub pat rest

/-- Python `str.isdigit()` restricted to ASCII text, which is the only text
the program feeds it: true iff the string is nonempty and all characters
are decimal digits. -/
def pyIsdigit (s : PyStr) : Bool := !s.isEmpty && s.all Char.isDigit

/-- Numeric value of a decimal digit character. -/
def digitVal (c : Char) : Nat := c.toNat - 48

/-- Value of a string of decimal digits. -/
def digitsVal (s : PyStr) : Nat := s.foldl (fun a c => a * 10 + digitVal c) 0

/-- Parse a nonempty all-digit string (the digit core of Python `int`). -/
def parseDigits (s : PyStr) : Option Nat :=
  if s ≠ [] ∧ s.all Char.isDigit then some (digitsVal s) else none

/-- Python `int(s)` on the ASCII strings the program parses: surrounding
whitespace is ignored, one optional sign, then decimal digits; anything
else raises `ValueError` (modelled as `none`). -/
def pyInt? (s : PyStr) : Option Int :=
  match pyStrip s with
  | '-' :: rest => (parseDigits rest).map (fun n => -(n : Int))
  | '+' :: rest => (parseDigits rest).map (fun n => (n : Int))
  | t => (parseDigits t).map (fun n => (n : Int))

/-- Decimal digits of a natural number, with an explicit fuel argument so
that the definition is structural (kernel-reducible). -/
def natDigitsCore : Nat → Nat → PyStr
  | 0, _ => []
  | fuel + 1, n =>
    if n < 10 then [Nat.digitChar n]
    else natDigitsCore fuel (n / 10) ++ [Nat.digitChar (n % 10)]

/-- Decimal representation of a natural number (`str(n)` for `n ≥ 0`). -/
def natDigits (n : Nat) : PyStr := natDigitsCore (n + 1) n

/-- Python `str(i)` for an integer. -/
def intStr (i : Int) : PyStr :=
  if i < 0 then '-' :: natDigits i.natAbs else natDigits i.natAbs

/-- Zero padding on the left to a given width (Python format `0Nd` for the
values the program prints: the width-2 uses never need a zero inserted
after a minus sign). -/
def padZero (w : Nat) (s : PyStr) : PyStr := List.replicate (w - s.length) '0' ++ s

/-- Python `f-string` field `{i:02d}`. -/
def fmt02 (i : Int) : PyStr := padZero 2 (intStr i)

/-- `{n:02d}` for a natural number. -/
def fmt02n (n : Nat) : PyStr := padZero 2 (natDigits n)

/-- `{n:04d}` for a natural number. -/
def fmt04n (n : Nat) : PyStr := padZero 4 (natDigits n)

/-- `_format_time` (source lines 106-111): format seconds as `MM:SS`, or
`HH:MM:SS` when the hour component is positive.  Python `//` and `%` are
floor division and floor modulus, `Int.fdiv` and `Int.fmod`. -/
def _format_time (seconds : Int) : PyStr :=
  let hours := seconds.fdiv 3600
  let minutes := (seconds.fmod 3600).fdiv 60
  let secs := seconds.fmod 60
  if 0 < hours then fmt02 hours ++ ':' :: fmt02 minutes ++ ':' :: fmt02 secs
  else fmt02 minutes ++ ':' :: fmt02 secs

/-- `_parse_time` (source lines 113-120): split on `':'`; two fields are
`MM:SS`, three are `HH:MM:SS`, any other field count returns `0`.  A field
that `int()` cannot parse raises `ValueError`, modelled as `none`. -/
def _parse_time (time_str : PyStr) : Option Int :=
  match pySplit ':' time_str with
  | [a, b] => do pure ((← pyInt? a) * 60 + (← pyInt? b))
  | [a, b, c] => do pure ((← pyInt? a) * 3600 + (← pyInt? b) * 60 + (← pyInt? c))
  | _ => some 0

/-! ## Dates and timestamps

The program keeps timestamps as ISO strings (`datetime.now().isoformat()`),
groups them by day with `strftime('%d %B %Y')` and reads day headers back
with `strptime('%d %B %Y')`. -/

/-- The fields of a Python `datetime` value as the program uses them. -/
structure PyDateTime where
  year : Nat
  month : Nat
  day : Nat
  hour : Nat
  minute : Nat
  second : Nat
  microsecond : Nat
deriving DecidableEq, Repr

def isLeapYear (y : Nat) : Bool :=
  (y % 4 = 0 && y % 100 ≠ 0) || y % 400 = 0

def daysInMonth (y m : Nat) : Nat :=
  if m = 2 then (if isLeapYear y then 29 else 28)
  else if m = 4 ∨ m = 6 ∨ m = 9 ∨ m = 11 then 30
  else 31

/-- Validity as enforced by the `datetime` constructor. -/
def validDateTime (dt : PyDateTime) : Prop :=
  1 ≤ dt.year ∧ dt.year ≤ 9999 ∧ 1 ≤ dt.month ∧ dt.month ≤ 12 ∧
  1 ≤ dt.day ∧ dt.day ≤ daysInMonth dt.year dt.month ∧
  dt.hour ≤ 23 ∧ dt.minute ≤ 59 ∧ dt.second ≤ 59 ∧ dt.microsecond ≤ 999999

instance (dt : PyDateTime) : Decidable (validDateTime dt) := by
  unfold validDateTime; infer_instance

/-- Consume exactly `k` decimal digits from the front of a string. -/
def takeDigits (k : Nat) (s : PyStr) : Option (Nat × PyStr) :=
  if (s.take k).length = k ∧ (s.take k).all Char.isDigit
  then some (digitsVal (s.take k), s.drop k) else none

/-- Consume one expected character. -/
def expectChar (c : Char) : PyStr → Option PyStr
  | x :: rest => if x = c then some rest else none
  | [] => none

/-- The optional time-of-day tail of an ISO timestamp: a one-character
separator, `HH:MM`, optionally `:SS`, optionally `.ffffff` (the shapes
`datetime.isoformat` emits and `datetime.fromisoformat` reads back). -/
def parseIsoTimePart : PyStr → Option (Nat × Nat × Nat × Nat)
  | [] => some (0, 0, 0, 0)
  | _sep :: rest => do
    let (h, r1) ← takeDigits 2 rest
    let r2 ← expectChar ':' r1
    let (mi, r3) ← takeDigits 2 r2
    match r3 with
    | [] => some (h, mi, 0, 0)
    | c :: r4 =>
      if c = ':' then do
        let (sec, r5) ← takeDigits 2 r4
        match r5 with
        | [] => some (h, mi, sec, 0)
        | c2 :: r6 =>
          if c2 = '.' then do
            let (us, r7) ← takeDigits 6 r6
            match r7 with
            | [] => some (h, mi, sec, us)
            | _ => none
          else none
      else none

/-- `datetime.fromisoformat` on the timestamps the program writes:
`YYYY-MM-DD` followed by an optional time part; `none` is the raised
`ValueError`. -/
def fromisoformat (s : PyStr) : Option PyDateTime := do
  let (y, r1) ← takeDigits 4 s
  let r2 ← expectChar '-' r1
  let (mo, r3) ← takeDigits 2 r2
  let r4 ← expectChar '-' r3
  let (d, r5) ← takeDigits 2 r4
  let (h, mi, sec, us) ← parseIsoTimePart r5
  if validDateTime ⟨y, mo, d, h, mi, sec, us⟩
  then some ⟨y, mo, d, h, mi, sec, us⟩ else none

/-- `datetime.isoformat()`: microseconds are printed only when nonzero. -/
def isoformat (dt : PyDateTime) : PyStr :=
  fmt04n dt.year ++ '-' :: (fmt02n dt.month ++ '-' :: (fmt02n dt.day ++ 'T' ::
    (fmt02n dt.hour ++ ':' :: (fmt02n dt.minute ++ ':' :: (fmt02n dt.second ++
      (if dt.microsecond = 0 then []
       else '.' :: padZero 6 (natDigits dt.microsecond)))))))

def monthName : Nat → PyStr
  | 1 => "January".toList
  | 2 => "February".toList
  | 3 => "March".toList
  | 4 => "April".toList
  | 5 => "May".toList
  | 6 => "June".toList
  | 7 => "July".toList
  | 8 => "August".toList
  | 9 => "September".toList
  | 10 => "October".toList
  | 11 => "November".toList
  | 12 => "December".toList
  | _ => []

/-- `strftime('%d %B %Y')`: zero-padded day, full month name, 4-digit year. -/
def strftimeDMY (dt : PyDateTime) : PyStr :=
  fmt02n dt.day ++ ' ' :: (monthName dt.month ++ ' ' :: fmt04n dt.year)

/-- Month-name lookup; `strptime` matches names case-insensitively. -/
def monthNum (s : PyStr) : Option Nat :=
  (List.range 12).findSome? (fun i =>
    if s.map Char.toLower = (monthName (i + 1)).map Char.toLower then some (i + 1) else none)

/-- `datetime.strptime(s, '%d %B %Y')`: a 1-2 digit day, a month name and
an up-to-4-digit year separated by single spaces; the `datetime`
constructor then validates the day against the month. -/
def strptimeDMY (s : PyStr) : Option PyDateTime :=
  match pySplit ' ' s with
  | [ds, ms, ys] =>
    if ds ≠ [] ∧ ds.length ≤ 2 ∧ ds.all Char.isDigit then
      match monthNum ms with
      | some mo =>
        if ys ≠ [] ∧ ys.length ≤ 4 ∧ ys.all Char.isDigit then
          if validDateTime ⟨digitsVal ys, mo, digitsVal ds, 0, 0, 0, 0⟩
          then some ⟨digitsVal ys, mo, digitsVal ds, 0, 0, 0, 0⟩ else none
        else none
      | none => none
    else none
  | _ => none

/-! ## The workout log and its persistence round trip -/

/-- One record of the append-only workout log: the dict created by
`_create_exercise_data` with keys `exercise`, `time`, `bpm`, `timestamp`. -/
structure WorkoutEntry where
  exercise : PyStr
  time : PyStr
  bpm : PyStr
  timestamp : PyStr
deriving DecidableEq, Repr

/-- The day (as in `strftime('%d %B %Y')`) of an entry's `created_at`,
when its timestamp parses. -/
def entryDay (e : WorkoutEntry) : Option PyStr :=
  (fromisoformat e.timestamp).map strftimeDMY

/-- `days_data.setdefault(date, []).append(data)` on an insertion-ordered
dict modelled as an association list with unique keys. -/
def groupInsert (m : List (PyStr × List WorkoutEntry)) (k : PyStr) (e : WorkoutEntry) :
    List (PyStr × List WorkoutEntry) :=
  match m with
  | [] => [(k, [e])]
  | (k', es) :: rest =>
    if k' = k then (k', es ++ [e]) :: rest else (k', es) :: groupInsert rest k e

/-- `_group_data_by_days` (source lines 155-164): group the log by the
formatted day of each entry's timestamp, skipping entries whose timestamp
does not parse. -/
def _group_data_by_days (log : List WorkoutEntry) : List (PyStr × List WorkoutEntry) :=
  log.foldl (fun m e =>
    match fromisoformat e.timestamp with
    | some dt => groupInsert m (strftimeDMY dt) e
    | none => m) []

/-- Dict lookup `days_data[date]` (the keys iterated always exist). -/
def lookupDay (m : List (PyStr × List WorkoutEntry)) (k : PyStr) : List WorkoutEntry :=
  match m with
  | [] => []
  | (k', es) :: rest => if k' = k then es else lookupDay rest k

/-- The key function of `_sort_dates`: parse the date string, falling back
to `datetime.min` on failure. -/
def date_key (s : PyStr) : PyDateTime := (strptimeDMY s).getD ⟨1, 1, 1, 0, 0, 0, 0⟩

/-- Strict chronological order on datetimes (their field tuples compare
lexicographically). -/
def dateLt (a b : PyDateTime) : Bool :=
  if a.year ≠ b.year then decide (a.year < b.year)
  else if a.month ≠ b.month then decide (a.month < b.month)
  else if a.day ≠ b.day then decide (a.day < b.day)
  else if a.hour ≠ b.hour then decide (a.hour < b.hour)
  else if a.minute ≠ b.minute then decide (a.minute < b.minute)
  else if a.second ≠ b.second then decide (a.second < b.second)
  else decide (a.microsecond < b.microsecond)

/-- One step of a stable descending insertion sort by `date_key`. -/
def insertDateDesc (x : PyStr) : List PyStr → List PyStr
  | [] => [x]
  | y :: ys =>
    if dateLt (date_key y) (date_key x) then x :: y :: ys else y :: insertDateDesc x ys

/-- `_sort_dates` (source lines 166-173): most recent day first. -/
def _sort_dates (dates : List PyStr) : List PyStr :=
  dates.foldl (fun acc d => insertDateDesc d acc) []

def tableHeaderLine : PyStr := "| Exercise Name | Time  | BPM |".toList

def tableSepLine : PyStr := "| ------------------- | ------ | --- |".toList

/-- The row `save_data` writes for one entry. -/
def rowLine (e : WorkoutEntry) : PyStr :=
  "| ".toList ++ e.exercise ++ " | ".toList ++ e.time ++ " | ".toList ++ e.bpm ++ " |".toList

/-- The text written for one day of `save_data`'s loop body. -/
def dayBlock (days : List (PyStr × List WorkoutEntry)) (date : PyStr) : PyStr :=
  "## ".toList ++ date ++ "\n\n".toList ++
  tableHeaderLine ++ '\n' :: tableSepLine ++ '\n' ::
  ((lookupDay days date).map (fun e => rowLine e ++ ['\n'])).flatten ++ ['\n']

/-- `save_data` (source lines 1526-1553): the full markdown file content.
The filesystem write itself is an external effect; this is the text. -/
def save_data (log : List WorkoutEntry) : PyStr :=
  let days := _group_data_by_days log
  "# Guitar Exercises\n\n".toList ++
  (if days.isEmpty then "Workout history is empty.\n".toList
   else ((_sort_dates (days.map Prod.fst)).map (dayBlock days)).flatten)

/-- Truthiness of `current_date` (initially `None`, then possibly empty). -/
def isTruthy : Option PyStr → Bool
  | some d => !d.isEmpty
  | none => false

/-- The line loop of `load_data` (source lines 1507-1522).  `now_iso` is
`datetime.now().isoformat()`, used when a day header fails to parse. -/
def load_lines (now_iso : PyStr) : Option PyStr → List PyStr → List WorkoutEntry
  | _, [] => []
  | cur, line :: rest =>
    if ("## ".toList).isPrefixOf line then
      load_lines now_iso (some (pyStrip (line.drop 3))) rest
    else if ("| ".toList).isPrefixOf line ∧ isTruthy cur = true ∧
            ¬ ("| ---".toList).isPrefixOf line ∧ hasSub ("BPM".toList) line = false then
      if 4 ≤ (pySplit '|' line).length then
        if pyStrip ((pySplit '|' line).getD 1 []) ≠ [] ∧
           (pyStrip ((pySplit '|' line).getD 1 [])).head? ≠ some '-' ∧
           pyStrip ((pySplit '|' line).getD 1 []) ≠ "Exercise Name".toList then
          ⟨pyStrip ((pySplit '|' line).getD 1 []),
           pyStrip ((pySplit '|' line).getD 2 []),
           pyStrip ((pySplit '|' line).getD 3 []),
           match cur.bind strptimeDMY with
           | some dt => isoformat dt
           | none => now_iso⟩ :: load_lines now_iso cur rest
        else load_lines now_iso cur rest
      else load_lines now_iso cur rest
    else load_lines now_iso cur rest

/-- `load_data` (source lines 1496-1524) applied to a file's text. -/
def load_data (now_iso content : PyStr) : List WorkoutEntry :=
  load_lines now_iso none (pySplit '\n' content)

/-- The list comprehension of `delete_day`: entries whose formatted day
equals `date`; `none` is the `ValueError` raised by `fromisoformat` on an
unparseable timestamp. -/
def selectDay (date : PyStr) : List WorkoutEntry → Option (List WorkoutEntry)
  | [] => some []
  | e :: rest =>
    match fromisoformat e.timestamp with
    | none => none
    | some dt =>
      (selectDay date rest).map (fun r => if strftimeDMY dt = date then e :: r else r)

/-- `delete_day` (source lines 1389-1404).  `confirmed` is the user's
answer to the confirmation dialog; the returned flag records whether
`save_data` was invoked.  Each matched workout is removed with
`list.remove`, which deletes the first equal element. -/
def delete_day (log : List WorkoutEntry) (date : PyStr) (confirmed : Bool) :
    Option (List WorkoutEntry × Bool) :=
  match selectDay date log with
  | none => none
  | some day_workouts =>
    if day_workouts.isEmpty then some (log, false)
    else if confirmed then some (day_workouts.foldl List.erase log, true)
    else some (log, false)

/-! ## Statistics -/

/-- The dict returned by `get_exercise_stats`. -/
structure ExerciseStats where
  total_sessions : Nat
  total_time_seconds : Int
  total_time_formatted : PyStr
  avg_bpm : Nat
deriving DecidableEq, Repr

/-- `get_exercise_stats` (source lines 1103-1142): filter by exact
exercise match; sum the parsed durations (an unparseable duration raises,
modelled as `none`); average the bpm values over entries whose bpm text is
all digits. -/
def get_exercise_stats (log : List WorkoutEntry) (exercise_name : PyStr) :
    Option ExerciseStats :=
  let exercise_data := log.filter (fun d => d.exercise = exercise_name)
  if exercise_data.isEmpty then some ⟨0, 0, "00:00".toList, 0⟩
  else do
    let times ← exercise_data.mapM (fun d => _parse_time d.time)
    let total_seconds := times.foldl (· + ·) 0
    let numeric := exercise_data.filter (fun d => pyIsdigit d.bpm)
    let total_bpm := (numeric.map (fun d => digitsVal d.bpm)).foldl (· + ·) 0
    pure ⟨exercise_data.length, total_seconds, _format_time total_seconds,
          if 0 < numeric.length then total_bpm / numeric.length else 0⟩

/-- `get_best_bpm` (source lines 1144-1150): running maximum, starting at
0, over matching entries with an all-digit bpm. -/
def get_best_bpm (log : List WorkoutEntry) (exercise_name : PyStr) : Nat :=
  log.foldl (fun best d =>
    if d.exercise = exercise_name ∧ pyIsdigit d.bpm = true
    then max best (digitsVal d.bpm) else best) 0

/-- The numeric bpm values of the entries matching an exercise. -/
def numericBpms (log : List WorkoutEntry) (exercise_name : PyStr) : List Nat :=
  ((log.filter (fun d => d.exercise = exercise_name)).filter
    (fun d => pyIsdigit d.bpm)).map (fun d => digitsVal d.bpm)

/-! ## Session state

The mutable fields of `ModernGuitarTrainerV2` that the session timer,
metronome and log commands touch.  `data_file` holds the text of the
persisted workout file; display labels that only mirror other fields are
modelled by `time_label`/`bpm_label`. -/

structure AppState where
  current_exercise : PyStr
  timer_running : Bool
  elapsed_time : Int
  workout_data : List WorkoutEntry
  metronome_running : Bool
  metronome_bpm : Int
  time_label : PyStr
  bpm_label : PyStr
  data_file : PyStr
deriving DecidableEq, Repr

/-- `_stop_metronome` (source lines 122-132): clears the running flag (the
button restyling is pure rendering). -/
def _stop_metronome (s : AppState) : AppState := {s with metronome_running := false}

/-- `_create_exercise_data` (source lines 134-142); `now_iso` is
`datetime.now().isoformat()`. -/
def _create_exercise_data (s : AppState) (bpm now_iso : PyStr) : WorkoutEntry :=
  ⟨s.current_exercise, _format_time (s.elapsed_time - 1), bpm, now_iso⟩

/-- `_save_workout_data` (source lines 144-153): stop the metronome, then
validate the bpm text; on success append the new entry and rewrite the
persisted file. -/
def _save_workout_data (s : AppState) (bpm now_iso : PyStr) : Bool × AppState :=
  let s := _stop_metronome s
  if ¬ pyIsdigit bpm then (false, s)
  else
    let data := s.workout_data ++ [_create_exercise_data s bpm now_iso]
    (true, {s with workout_data := data, data_file := save_data data})

/-- `update_timer` (source lines 542-547): while running, display the
current elapsed value and only then increment it. -/
def update_timer (s : AppState) : AppState :=
  if s.timer_running then
    {s with time_label := _format_time s.elapsed_time, elapsed_time := s.elapsed_time + 1}
  else s

/-- The state set up by `start_timer` (source lines 537-539)
immediately before its first `update_timer` call. -/
def timer_started (s : AppState) (exercise : PyStr) : AppState :=
  {s with current_exercise := exercise, timer_running := true, elapsed_time := 0}

/-- `start_timer` (source lines 422-540): set up the session and run the
first tick. -/
def start_timer (s : AppState) (exercise : PyStr) : AppState :=
  update_timer (timer_started s exercise)

/-- `finish_exercise` (source lines 577-580): stop ticking (the bpm
dialog follows). -/
def finish_exercise (s : AppState) : AppState := {s with timer_running := false}

/-- The finish path: `finish_exercise` then the dialog's
`finish_workout`/`save_exercise` handler calling `_save_workout_data`. -/
def finish_workout (s : AppState) (bpm now_iso : PyStr) : Bool × AppState :=
  _save_workout_data (finish_exercise s) bpm now_iso

/-- `change_bpm` (source lines 1238-1244): apply the delta only when the
result stays within `[30, 200]`; otherwise silently keep the old value. -/
def change_bpm (s : AppState) (delta : Int) : AppState :=
  let new_bpm := s.metronome_bpm + delta
  if 30 ≤ new_bpm ∧ new_bpm ≤ 200 then
    {s with metronome_bpm := new_bpm, bpm_label := "BPM: ".toList ++ intStr new_bpm}
  else s

/-! ## The exercise catalog -/

/-- An `info` record: `{link, note}`. -/
structure ExerciseInfo where
  link : PyStr
  note : PyStr
deriving DecidableEq, Repr

/-- `exercises_structure`: `{root: [...], folders: {...}, info: {...}}`,
the dicts modelled as insertion-ordered association lists. -/
structure Catalog where
  root : List PyStr
  folders : List (PyStr × List PyStr)
  info : List (PyStr × ExerciseInfo)
deriving DecidableEq, Repr

/-- Lexicographic string order (Python string comparison on code points). -/
def strLe (a b : PyStr) : Bool :=
  match a, b with
  | [], _ => true
  | _ :: _, [] => false
  | x :: xs, y :: ys => x.toNat < y.toNat || (x = y && strLe xs ys)

/-- One step of sorting a list of names ascending by `strLe`. -/
def insertSorted (x : PyStr) : List PyStr → List PyStr
  | [] => [x]
  | y :: ys => if strLe x y then x :: y :: ys else y :: insertSorted x ys

/-- Python `sorted` on a list of distinct strings (insertion sort; on a
duplicate-free input any comparison sort produces the same list). -/
def sortStrs (l : List PyStr) : List PyStr := l.foldr insertSorted []

/-- `flatten_exercises` (source lines 299-304): the sorted set of all
exercise names in root or any folder. -/
def flatten_exercises (c : Catalog) : List PyStr :=
  sortStrs ((c.root ++ (c.folders.map Prod.snd).flatten).dedup)

/-- `create_folder` (source lines 885-893); `folder_name` is the stripped
entry text. -/
def create_folder (c : Catalog) (name : PyStr) : Catalog :=
  if pyStrip name = [] then c
  else if pyStrip name ∈ c.folders.map Prod.fst then c
  else {c with folders := c.folders ++ [(pyStrip name, [])]}

/-- `folders.setdefault(k, []).append(x)`. -/
def appendToFolder : List (PyStr × List PyStr) → PyStr → PyStr → List (PyStr × List PyStr)
  | [], k, x => [(k, [x])]
  | (k', l) :: rest, k, x =>
    if k' = k then (k', l ++ [x]) :: rest else (k', l) :: appendToFolder rest k x

/-- `folder_list = folders.setdefault(k, []); if x not in folder_list:
folder_list.append(x)`. -/
def appendToFolderIfAbsent :
    List (PyStr × List PyStr) → PyStr → PyStr → List (PyStr × List PyStr)
  | [], k, x => [(k, [x])]
  | (k', l) :: rest, k, x =>
    if k' = k then (k', if x ∈ l then l else l ++ [x]) :: rest
    else (k', l) :: appendToFolderIfAbsent rest k x

/-- `info[k] = v` on a dict. -/
def setInfo (m : List (PyStr × ExerciseInfo)) (k : PyStr) (v : ExerciseInfo) :
    List (PyStr × ExerciseInfo) :=
  match m with
  | [] => [(k, v)]
  | (k', v') :: rest => if k' = k then (k', v) :: rest else (k', v') :: setInfo rest k v

/-- `info.pop(k, None)`: the removed value (if any) and the remaining dict. -/
def popInfo (m : List (PyStr × ExerciseInfo)) (k : PyStr) :
    Option ExerciseInfo × List (PyStr × ExerciseInfo) :=
  match m with
  | [] => (none, [])
  | (k', v) :: rest =>
    if k' = k then (some v, rest)
    else
      let p := popInfo rest k
      (p.1, (k', v) :: p.2)

/-- `add_now` of `open_add_exercise_dialog` (source lines 1044-1063):
reject an empty name or a name already anywhere in the catalog; otherwise
append to root or to the chosen folder and record the info. -/
def add_exercise (c : Catalog) (name folder link note : PyStr) : Catalog :=
  if pyStrip name = [] then c
  else if pyStrip name ∈ flatten_exercises c then c
  else if folder = "Root".toList then
    { root := c.root ++ [pyStrip name], folders := c.folders,
      info := setInfo c.info (pyStrip name) ⟨pyStrip link, pyStrip note⟩ }
  else
    { root := c.root, folders := appendToFolder c.folders folder (pyStrip name),
      info := setInfo c.info (pyStrip name) ⟨pyStrip link, pyStrip note⟩ }

/-- `if x in items: items.remove(x)` over every folder (`list.remove`
deletes the first occurrence). -/
def removeFromAllFolders (folders : List (PyStr × List PyStr)) (x : PyStr) :
    List (PyStr × List PyStr) :=
  folders.map (fun p => (p.1, if x ∈ p.2 then p.2.erase x else p.2))

/-- `confirm` of `move_selected_to_folder` (source lines 920-933): remove
the name from root and every folder, then append it to the destination. -/
def move_to_folder (c : Catalog) (name folder : PyStr) : Catalog :=
  {c with
    root := if name ∈ c.root then c.root.erase name else c.root,
    folders := appendToFolderIfAbsent (removeFromAllFolders c.folders name) folder name}

/-- Replace the first occurrence (the `for ... enumerate ... break` loops
of `do_rename`). -/
def replaceFirst : List PyStr → PyStr → PyStr → List PyStr
  | [], _, _ => []
  | x :: xs, old, new => if x = old then new :: xs else x :: replaceFirst xs old new

/-- `do_rename` of `rename_selected_exercise` (source lines 977-1001):
no-op on an empty or unchanged name; otherwise rewrite the first
occurrence in root and in each folder and migrate the info key. -/
def rename_exercise (c : Catalog) (old_name new_input : PyStr) : Catalog :=
  if pyStrip new_input = [] ∨ pyStrip new_input = old_name then c
  else
    { root := replaceFirst c.root old_name (pyStrip new_input),
      folders := c.folders.map
        (fun p => (p.1, replaceFirst p.2 old_name (pyStrip new_input))),
      info := match popInfo c.info old_name with
              | (some v, m) => setInfo m (pyStrip new_input) v
              | (none, _) => c.info }

/-- `delete_exercise` (source lines 871-882), confirmed path. -/
def delete_exercise (c : Catalog) (exercise : PyStr) : Catalog :=
  { root := if exercise ∈ c.root then c.root.erase exercise else c.root,
    folders := removeFromAllFolders c.folders exercise,
    info := (popInfo c.info exercise).2 }

/-- The catalog commands of the claimed invariant. -/
inductive CatOp where
  | create_folder (name : PyStr)
  | add_exercise (name folder link note : PyStr)
  | move (name folder : PyStr)
  | rename (old_name new_name : PyStr)
  | delete (name : PyStr)
deriving DecidableEq, Repr

def applyOp (c : Catalog) : CatOp → Catalog
  | .create_folder n => create_folder c n
  | .add_exercise n f l note => add_exercise c n f l note
  | .move n f => move_to_folder c n f
  | .rename o n => rename_exercise c o n
  | .delete n => delete_exercise c n

def applyOps (c : Catalog) (ops : List CatOp) : Catalog := ops.foldl applyOp c

/-- Total number of occurrences of a name across root and all folders. -/
def occCount (c : Catalog) (n : PyStr) : Nat :=
  c.root.count n + (c.folders.map (fun p => p.2.count n)).sum

/-- Every name occurs at most once in the whole tree. -/
def UniqueOcc (c : Catalog) : Prop := ∀ n : PyStr, occCount c n ≤ 1

/-- Number of containers (root, each folder) whose member set holds `n`. -/
def containerCount (c : Catalog) (n : PyStr) : Nat :=
  (if n ∈ c.root then 1 else 0) + (c.folders.filter (fun p => n ∈ p.2)).length

/-- The claimed invariant: every exercise name appears in at most one of
root / exactly one folder. -/
def AtMostOneContainer (c : Catalog) : Prop := ∀ n : PyStr, containerCount c n ≤ 1

/-- Side condition on a step: a rename must not target a name that already
exists elsewhere in the catalog. -/
def renameOk (c : Catalog) : CatOp → Bool
  | .rename o newIn =>
    let n := pyStrip newIn
    n = [] || n = o || !(decide (n ∈ flatten_exercises c))
  | _ => true

/-- All steps of a command sequence satisfy `renameOk` at the state where
they execute. -/
def okSeq : Catalog → List CatOp → Bool
  | _, [] => true
  | c, op :: ops => renameOk c op && okSeq (applyOp c op) ops

/-! ## Lemmas: decimal digits and padding -/

theorem natDigitsCore_congr (n : Nat) :
    ∀ f1 f2, n < f1 → n < f2 → natDigitsCore f1 n = natDigitsCore f2 n := by
  induction n using Nat.strong_induction_on with
  | _ n ih =>
    intro f1 f2 h1 h2
    match f1, f2 with
    | f1 + 1, f2 + 1 =>
      simp only [natDigitsCore]
      by_cases h : n < 10
      · simp [h]
      · have hd : n / 10 < n := Nat.div_lt_self (by omega) (by omega)
        simp only [h, if_false]
        rw [ih (n / 10) hd f1 f2 (by omega) (by omega)]

theorem natDigits_eq (n : Nat) :
    natDigits n = if n < 10 then [Nat.digitChar n]
                  else natDigits (n / 10) ++ [Nat.digitChar (n % 10)] := by
  show (if n < 10 then [Nat.digitChar n]
        else natDigitsCore n (n / 10) ++ [Nat.digitChar (n % 10)]) = _
  by_cases h : n < 10
  · rw [if_pos h, if_pos h]
  · have hd : n / 10 < n := Nat.div_lt_self (by omega) (by omega)
    rw [if_neg h, if_neg h,
        natDigitsCore_congr (n / 10) n (n / 10 + 1) hd (by omega)]
    rfl

theorem digitChar_isDigit {n : Nat} (h : n < 10) : (Nat.digitChar n).isDigit = true := by
  interval_cases n <;> decide

theorem digitVal_digitChar {n : Nat} (h : n < 10) : digitVal (Nat.digitChar n) = n := by
  interval_cases n <;> decide

theorem natDigits_all_digit (n : Nat) : ∀ c ∈ natDigits n, c.isDigit = true := by
  induction n using Nat.strong_induction_on with
  | _ n ih =>
    rw [natDigits_eq]
    by_cases h : n < 10
    · simp only [h, if_true, List.mem_singleton]
      rintro c rfl; exact digitChar_isDigit h
    · have hd : n / 10 < n := Nat.div_lt_self (by omega) (by omega)
      simp only [h, if_false, List.mem_append, List.mem_singleton]
      rintro c (hc | rfl)
      · exact ih (n / 10) hd c hc
      · exact digitChar_isDigit (Nat.mod_lt _ (by omega))

theorem natDigits_ne_nil (n : Nat) : natDigits n ≠ [] := by
  rw [natDigits_eq]
  by_cases h : n < 10 <;> simp [h]

theorem digitsVal_append_singleton (s : PyStr) (c : Char) :
    digitsVal (s ++ [c]) = digitsVal s * 10 + digitVal c := by
  simp [digitsVal, List.foldl_append]

theorem digitsVal_natDigits (n : Nat) : digitsVal (natDigits n) = n := by
  induction n using Nat.strong_induction_on with
  | _ n ih =>
    rw [natDigits_eq]
    by_cases h : n < 10
    · simp only [h, if_true]
      simp [digitsVal, digitVal_digitChar h]
    · have hd : n / 10 < n := Nat.div_lt_self (by omega) (by omega)
      simp only [h, if_false]
      rw [digitsVal_append_singleton, ih (n / 10) hd,
          digitVal_digitChar (Nat.mod_lt _ (by omega))]
      omega

theorem natDigits_length_le (k : Nat) :
    ∀ n, n < 10 ^ k → 1 ≤ k → (natDigits n).length ≤ k := by
  induction k with
  | zero => omega
  | succ k ihk =>
    intro n hn _
    rw [natDigits_eq]
    by_cases h : n < 10
    · rw [if_pos h]
      simp only [List.length_singleton]
      omega
    · have hd : n / 10 < 10 ^ k := by
        rw [Nat.div_lt_iff_lt_mul (by omega)]
        calc n < 10 ^ (k + 1) := hn
        _ = 10 ^ k * 10 := by ring
      have hk : 1 ≤ k := by
        by_contra hk0
        have hk1 : k = 0 := by omega
        rw [hk1, pow_zero] at hd
        omega
      simp only [h, if_false, List.length_append, List.length_singleton]
      have := ihk (n / 10) hd hk
      omega

theorem digitsVal_replicate_zero (k : Nat) (s : PyStr) :
    digitsVal (List.replicate k '0' ++ s) = digitsVal s := by
  induction k with
  | zero => simp
  | succ k ih =>
    simp only [List.replicate_succ, List.cons_append]
    show List.foldl _ (0 * 10 + digitVal '0') _ = _
    have : (0 : Nat) * 10 + digitVal '0' = 0 := by decide
    rw [this]
    exact ih

theorem digitsVal_padZero (w : Nat) (s : PyStr) : digitsVal (padZero w s) = digitsVal s :=
  digitsVal_replicate_zero _ s

theorem padZero_all_digit (w : Nat) (s : PyStr) (h : ∀ c ∈ s, c.isDigit = true) :
    ∀ c ∈ padZero w s, c.isDigit = true := by
  intro c hc
  rcases List.mem_append.mp hc with hrep | hs
  · rw [List.eq_of_mem_replicate hrep]; decide
  · exact h c hs

theorem padZero_ne_nil (w : Nat) (s : PyStr) (h : s ≠ []) : padZero w s ≠ [] := by
  unfold padZero
  intro he
  exact h (List.append_eq_nil.mp he).2

theorem padZero_length (w : Nat) (s : PyStr) (h : s.length ≤ w) :
    (padZero w s).length = w := by
  simp [padZero]
  omega

theorem fmt02n_all_digit (n : Nat) : ∀ c ∈ fmt02n n, c.isDigit = true :=
  padZero_all_digit _ _ (natDigits_all_digit n)

theorem fmt04n_all_digit (n : Nat) : ∀ c ∈ fmt04n n, c.isDigit = true :=
  padZero_all_digit _ _ (natDigits_all_digit n)

theorem fmt02n_ne_nil (n : Nat) : fmt02n n ≠ [] :=
  padZero_ne_nil _ _ (natDigits_ne_nil n)

theorem fmt04n_ne_nil (n : Nat) : fmt04n n ≠ [] :=
  padZero_ne_nil _ _ (natDigits_ne_nil n)

theorem digitsVal_fmt02n (n : Nat) : digitsVal (fmt02n n) = n := by
  rw [fmt02n, digitsVal_padZero, digitsVal_natDigits]

theorem digitsVal_fmt04n (n : Nat) : digitsVal (fmt04n n) = n := by
  rw [fmt04n, digitsVal_padZero, digitsVal_natDigits]

theorem fmt02n_length (n : Nat) (h : n < 100) : (fmt02n n).length = 2 :=
  padZero_length _ _ (natDigits_length_le 2 n h (by omega))

theorem fmt04n_length (n : Nat) (h : n < 10000) : (fmt04n n).length = 4 :=
  padZero_length _ _ (natDigits_length_le 4 n h (by omega))

theorem intStr_natCast (n : Nat) : intStr (n : Int) = natDigits n := by
  simp [intStr]

theorem fmt02_natCast (n : Nat) : fmt02 (n : Int) = fmt02n n := by
  rw [fmt02, intStr_natCast, fmt02n]

/-! ## Lemmas: Python string helpers -/

theorem not_space_of_digit {c : Char} (h : c.isDigit = true) : pyIsSpace c = false := by
  simp only [pyIsSpace, Bool.or_eq_false_iff, decide_eq_false_iff_not]
  refine ⟨⟨⟨⟨⟨?_, ?_⟩, ?_⟩, ?_⟩, ?_⟩, ?_⟩ <;> (rintro rfl; exact absurd h (by decide))

theorem dropWhile_eq_self_of_all {p : Char → Bool} {l : PyStr}
    (h : ∀ c ∈ l, p c = false) : l.dropWhile p = l := by
  cases l with
  | nil => rfl
  | cons c rest =>
    rw [List.dropWhile_cons, h c (List.mem_cons_self c rest)]
    simp

theorem pyStrip_eq_self_of_all {s : PyStr} (h : ∀ c ∈ s, pyIsSpace c = false) :
    pyStrip s = s := by
  unfold pyStrip
  rw [dropWhile_eq_self_of_all h,
      dropWhile_eq_self_of_all (fun c hc => h c (List.mem_reverse.mp hc)),
      List.reverse_reverse]

theorem pyStrip_eq_self_of_ends {s : PyStr} {a b : Char}
    (ha : s.head? = some a) (hb : s.getLast? = some b)
    (hna : pyIsSpace a = false) (hnb : pyIsSpace b = false) : pyStrip s = s := by
  unfold pyStrip
  have h1 : s.dropWhile pyIsSpace = s := by
    cases s with
    | nil => rfl
    | cons c rest =>
      simp only [List.head?_cons, Option.some_inj] at ha
      subst ha
      rw [List.dropWhile_cons, hna]
      simp
  rw [h1]
  have h2 : s.reverse.dropWhile pyIsSpace = s.reverse := by
    cases hrev : s.reverse with
    | nil => rfl
    | cons c rest =>
      have : s.reverse.head? = some b := by rw [List.head?_reverse]; exact hb
      rw [hrev, List.head?_cons, Option.some_inj] at this
      subst this
      rw [List.dropWhile_cons, hnb]
      simp
  rw [h2, List.reverse_reverse]

theorem pySplit_ne_nil (c : Char) (s : PyStr) : pySplit c s ≠ [] := by
  cases s with
  | nil => simp [pySplit]
  | cons ch rest =>
    simp only [pySplit]
    rcases h : pySplit c rest with _ | ⟨f, fs⟩
    · simp
    · by_cases hc : ch = c <;> simp [hc]

theorem pySplit_no_sep {c : Char} {s : PyStr} (h : c ∉ s) : pySplit c s = [s] := by
  induction s with
  | nil => rfl
  | cons ch rest ih =>
    have hch : ch ≠ c := fun e => h (e ▸ List.mem_cons_self ch rest)
    have hrest : c ∉ rest := fun e => h (List.mem_cons_of_mem ch e)
    simp only [pySplit, ih hrest, hch, if_false]

theorem pySplit_sep {c : Char} {a : PyStr} (b : PyStr) (h : c ∉ a) :
    pySplit c (a ++ c :: b) = a :: pySplit c b := by
  induction a with
  | nil =>
    show (match pySplit c b with
          | [] => [[]]
          | f :: fs => if c = c then [] :: f :: fs else (c :: f) :: fs) = [] :: pySplit c b
    rcases hb : pySplit c b with _ | ⟨f, fs⟩
    · exact absurd hb (pySplit_ne_nil c b)
    · simp
  | cons ch rest ih =>
    have hch : ch ≠ c := fun e => h (e ▸ List.mem_cons_self ch rest)
    have hrest : c ∉ rest := fun e => h (List.mem_cons_of_mem ch e)
    show (match pySplit c (rest ++ c :: b) with
          | [] => [[]]
          | f :: fs => if ch = c then [] :: f :: fs else (ch :: f) :: fs) =
      (ch :: rest) :: pySplit c b
    rw [ih hrest]
    simp [hch]

theorem joinSep_pySplit (c : Char) (s : PyStr) : joinSep c (pySplit c s) = s := by
  induction s with
  | nil => rfl
  | cons ch rest ih =>
    simp only [pySplit]
    rcases h : pySplit c rest with _ | ⟨f, fs⟩
    · exact absurd h (pySplit_ne_nil c rest)
    · rw [h] at ih
      by_cases hc : ch = c
      · subst hc
        simp only [if_true, joinSep]
        exact congrArg (ch :: ·) ih
      · simp only [hc, if_false]
        cases fs with
        | nil => simp only [joinSep] at ih ⊢; rw [← ih]
        | cons g gs => simp only [joinSep] at ih ⊢; rw [List.cons_append, ih]

theorem mem_joinSep {c : Char} {parts : List PyStr} {x : Char}
    (hx : x ∈ joinSep c parts) : x = c ∨ ∃ p ∈ parts, x ∈ p := by
  induction parts with
  | nil => simp [joinSep] at hx
  | cons p rest ih =>
    cases rest with
    | nil =>
      simp only [joinSep] at hx
      exact Or.inr ⟨p, List.mem_singleton_self p, hx⟩
    | cons q qs =>
      simp only [joinSep, List.mem_append, List.mem_cons] at hx
      rcases hx with hp | rfl | hrest
      · exact Or.inr ⟨p, List.mem_cons_self _ _, hp⟩
      · exact Or.inl rfl
      · rcases ih hrest with rfl | ⟨r, hr, hxr⟩
        · exact Or.inl rfl
        · exact Or.inr ⟨r, List.mem_cons_of_mem _ hr, hxr⟩

theorem pyInt?_digits {s : PyStr} (h1 : s ≠ []) (h2 : ∀ c ∈ s, c.isDigit = true) :
    pyInt? s = some ((digitsVal s : Nat) : Int) := by
  have hstrip : pyStrip s = s :=
    pyStrip_eq_self_of_all (fun c hc => not_space_of_digit (h2 c hc))
  have hpd : parseDigits s = some (digitsVal s) := by
    rw [parseDigits, if_pos ⟨h1, List.all_eq_true.mpr h2⟩]
  cases s with
  | nil => exact absurd rfl h1
  | cons c rest =>
    have hc : c.isDigit = true := h2 c (List.mem_cons_self c rest)
    have hcm : c ≠ '-' := by rintro rfl; exact absurd hc (by decide)
    have hcp : c ≠ '+' := by rintro rfl; exact absurd hc (by decide)
    unfold pyInt?
    rw [hstrip]
    split
    · next heq => injection heq with h h'; exact absurd h hcm
    · next heq => injection heq with h h'; exact absurd h hcp
    · rw [hpd]; rfl

/-! ## Lemmas: `_format_time` / `_parse_time` -/

theorem natCast_fdiv (m k : Nat) : (m : Int).fdiv (k : Int) = ((m / k : Nat) : Int) := by
  rw [Int.fdiv_eq_tdiv (by positivity) (by positivity), ← Int.ofNat_tdiv]

theorem natCast_fmod (m k : Nat) : (m : Int).fmod (k : Int) = ((m % k : Nat) : Int) := by
  rw [Int.fmod_eq_tmod (by positivity) (by positivity), ← Int.ofNat_tmod]

theorem format_time_natCast (n : Nat) :
    _format_time (n : Int) =
      if 0 < n / 3600 then
        fmt02n (n / 3600) ++ ':' :: (fmt02n (n % 3600 / 60) ++ ':' :: fmt02n (n % 60))
      else fmt02n (n % 3600 / 60) ++ ':' :: fmt02n (n % 60) := by
  unfold _format_time
  have e3600 : (3600 : Int) = ((3600 : Nat) : Int) := by norm_num
  have e60 : (60 : Int) = ((60 : Nat) : Int) := by norm_num
  rw [e3600, e60, natCast_fdiv, natCast_fmod, natCast_fdiv, natCast_fmod]
  have hlt : (0 : Int) < ((n / 3600 : Nat) : Int) ↔ 0 < n / 3600 := by
    exact_mod_cast Iff.rfl
  by_cases h : 0 < n / 3600
  · rw [if_pos (hlt.mpr h), if_pos h, fmt02_natCast, fmt02_natCast, fmt02_natCast]
    simp [List.cons_append, List.append_assoc]
  · rw [if_neg (fun hc => h (hlt.mp hc)), if_neg h, fmt02_natCast, fmt02_natCast]

theorem colon_not_mem_fmt02n (n : Nat) : ':' ∉ fmt02n n := by
  intro h
  exact absurd (fmt02n_all_digit n ':' h) (by decide)

theorem parse_time_two_fields {a b : PyStr} (ha : ':' ∉ a) (hb : ':' ∉ b) :
    _parse_time (a ++ ':' :: b) =
      (do pure ((← pyInt? a) * 60 + (← pyInt? b))) := by
  unfold _parse_time
  rw [pySplit_sep b ha, pySplit_no_sep hb]

theorem parse_time_three_fields {a b c : PyStr}
    (ha : ':' ∉ a) (hb : ':' ∉ b) (hc : ':' ∉ c) :
    _parse_time (a ++ ':' :: (b ++ ':' :: c)) =
      (do pure ((← pyInt? a) * 3600 + (← pyInt? b) * 60 + (← pyInt? c))) := by
  unfold _parse_time
  rw [pySplit_sep (b ++ ':' :: c) ha, pySplit_sep c hb, pySplit_no_sep hc]

theorem parse_time_format_time (n : Nat) (h : n < 24 * 3600) :
    _parse_time (_format_time (n : Int)) = some (n : Int) := by
  rw [format_time_natCast]
  by_cases hh : 0 < n / 3600
  · rw [if_pos hh,
        parse_time_three_fields (colon_not_mem_fmt02n _) (colon_not_mem_fmt02n _)
          (colon_not_mem_fmt02n _),
        pyInt?_digits (fmt02n_ne_nil _) (fmt02n_all_digit _),
        pyInt?_digits (fmt02n_ne_nil _) (fmt02n_all_digit _),
        pyInt?_digits (fmt02n_ne_nil _) (fmt02n_all_digit _)]
    simp only [Option.bind_eq_bind, Option.some_bind, digitsVal_fmt02n]
    congr 1
    push_cast
    omega
  · rw [if_neg hh,
        parse_time_two_fields (colon_not_mem_fmt02n _) (colon_not_mem_fmt02n _),
        pyInt?_digits (fmt02n_ne_nil _) (fmt02n_all_digit _),
        pyInt?_digits (fmt02n_ne_nil _) (fmt02n_all_digit _)]
    simp only [Option.bind_eq_bind, Option.some_bind, digitsVal_fmt02n]
    congr 1
    push_cast
    omega

/-! ## Claim theorems: C5, C9, C10 -/

/-- C5: `format_time(65) = "01:05"`, `format_time(3661) = "01:01:01"`,
`parse_time("01:05") = 65`, `parse_time("01:01:01") = 3661`, and
`parse_time(format_time(s)) = s` for every second count `s` with
`0 ≤ s < 24*3600`. -/
theorem c5_time_format_parse_roundtrip :
    _format_time 65 = "01:05".toList ∧
    _format_time 3661 = "01:01:01".toList ∧
    _parse_time ("01:05".toList) = some 65 ∧
    _parse_time ("01:01:01".toList) = some 3661 ∧
    ∀ s : Int, 0 ≤ s → s < 24 * 3600 → _parse_time (_format_time s) = some s := by
  refine ⟨by decide, by decide, by decide, by decide, ?_⟩
  intro s h0 hlt
  obtain ⟨n, rfl⟩ : ∃ n : Nat, s = (n : Int) := ⟨s.toNat, (Int.toNat_of_nonneg h0).symm⟩
  exact parse_time_format_time n (by exact_mod_cast hlt)

/-- Witness for C5 at a concrete input. -/
theorem c5_witness : _parse_time (_format_time 7322) = some 7322 :=
  c5_time_format_parse_roundtrip.2.2.2.2 7322 (by decide) (by decide)

/-- C9 (implicit): an entry created with `elapsed = 0` stores
`format_time(-1)`, and Python's floor division and modulus make that the
string `"59:59"` (hours are `-1`, suppressed since not `> 0`), not
`"00:00"` and not an error. -/
theorem c9_format_time_minus_one (s : AppState) (bpm now_iso : PyStr) :
    (_create_exercise_data {s with elapsed_time := 0} bpm now_iso).time = "59:59".toList ∧
    _format_time (-1) = "59:59".toList ∧
    ("59:59".toList : PyStr) ≠ "00:00".toList := by
  refine ⟨?_, by decide, by decide⟩
  show _format_time ((0 : Int) - 1) = _
  decide

/-- C10 (implicit): any string whose split on `':'` has a field count other
than 2 or 3 — e.g. `""`, `"45"`, `"1:2:3:4"` — makes `parse_time` return 0
rather than raise. -/
theorem c10_parse_time_other_field_counts :
    (∀ s : PyStr, (pySplit ':' s).length ≠ 2 → (pySplit ':' s).length ≠ 3 →
       _parse_time s = some 0) ∧
    _parse_time ("".toList) = some 0 ∧
    _parse_time ("45".toList) = some 0 ∧
    _parse_time ("1:2:3:4".toList) = some 0 := by
  refine ⟨?_, by decide, by decide, by decide⟩
  intro s h2 h3
  unfold _parse_time
  split
  · next heq => rw [heq] at h2; simp at h2
  · next heq => rw [heq] at h3; simp at h3
  · rfl

/-- Witness for C10 at a concrete input with four fields. -/
theorem c10_witness : _parse_time ("10:20:30:40".toList) = some 0 :=
  c10_parse_time_other_field_counts.1 ("10:20:30:40".toList) (by decide) (by decide)

/-! ## Lemmas and claim theorems: the metronome bpm (C7) -/

theorem change_bpm_foldl_bounds (deltas : List Int) :
    ∀ t : AppState, 30 ≤ t.metronome_bpm → t.metronome_bpm ≤ 200 →
      30 ≤ (List.foldl change_bpm t deltas).metronome_bpm ∧
      (List.foldl change_bpm t deltas).metronome_bpm ≤ 200 := by
  induction deltas with
  | nil => intro t h1 h2; exact ⟨h1, h2⟩
  | cons d ds ih =>
    intro t h1 h2
    rw [List.foldl_cons]
    unfold change_bpm
    by_cases h : 30 ≤ t.metronome_bpm + d ∧ t.metronome_bpm + d ≤ 200
    · rw [if_pos h]
      exact ih _ (by simpa using h.1) (by simpa using h.2)
    · rw [if_neg h]
      exact ih t h1 h2

/-- C7: starting from the initial bpm of 120, every sequence of
`change_bpm` deltas keeps the bpm within `[30, 200]` at every step, and a
single step either lands in range or is a silent no-op (never an error). -/
theorem c7_metronome_bpm_invariant (s : AppState) (deltas : List Int) :
    (30 ≤ (List.foldl change_bpm {s with metronome_bpm := 120} deltas).metronome_bpm ∧
     (List.foldl change_bpm {s with metronome_bpm := 120} deltas).metronome_bpm ≤ 200) ∧
    (∀ (t : AppState) (d : Int),
       change_bpm t d = t ∨
       (30 ≤ (change_bpm t d).metronome_bpm ∧ (change_bpm t d).metronome_bpm ≤ 200)) := by
  constructor
  · exact change_bpm_foldl_bounds deltas _ (by norm_num) (by norm_num)
  · intro t d
    unfold change_bpm
    by_cases h : 30 ≤ t.metronome_bpm + d ∧ t.metronome_bpm + d ≤ 200
    · right
      rw [if_pos h]
      exact ⟨by simpa using h.1, by simpa using h.2⟩
    · left
      rw [if_neg h]

/-! ## Lemmas and claim theorems: the session timer (C3, C4) -/

theorem update_timer_of_running {t : AppState} (h : t.timer_running = true) :
    update_timer t =
      {t with time_label := _format_time t.elapsed_time,
              elapsed_time := t.elapsed_time + 1} := by
  unfold update_timer
  rw [if_pos h]

theorem update_timer_iterate_fields (n : Nat) :
    ∀ t : AppState, t.timer_running = true →
      (update_timer^[n] t).current_exercise = t.current_exercise ∧
      (update_timer^[n] t).timer_running = true ∧
      (update_timer^[n] t).elapsed_time = t.elapsed_time + n ∧
      (update_timer^[n] t).workout_data = t.workout_data := by
  induction n with
  | zero =>
    intro t ht
    refine ⟨rfl, ht, by simp, rfl⟩
  | succ n ih =>
    intro t ht
    rw [Function.iterate_succ_apply']
    obtain ⟨h1, h2, h3, h4⟩ := ih t ht
    rw [update_timer_of_running h2]
    refine ⟨h1, h2, ?_, h4⟩
    show (update_timer^[n] t).elapsed_time + 1 = _
    rw [h3]
    push_cast
    ring

theorem update_timer_iterate_label (n : Nat) (t : AppState) (ht : t.timer_running = true) :
    (update_timer^[n + 1] t).time_label = _format_time (t.elapsed_time + n) := by
  obtain ⟨h1, h2, h3, h4⟩ := update_timer_iterate_fields n t ht
  rw [Function.iterate_succ_apply', update_timer_of_running h2]
  show _format_time ((update_timer^[n] t).elapsed_time) = _
  rw [h3]

theorem save_workout_data_success {s : AppState} {bpm now_iso : PyStr}
    (h : pyIsdigit bpm = true) :
    _save_workout_data s bpm now_iso =
      (true,
        {s with
          metronome_running := false,
          workout_data := s.workout_data ++
            [⟨s.current_exercise, _format_time (s.elapsed_time - 1), bpm, now_iso⟩],
          data_file := save_data (s.workout_data ++
            [⟨s.current_exercise, _format_time (s.elapsed_time - 1), bpm, now_iso⟩])}) := by
  unfold _save_workout_data _stop_metronome _create_exercise_data
  simp [h]

/-- C3: after the timer has ticked `n` times from a fresh session (elapsed
goes 0 → `n`; each tick displays the pre-increment value, so the `n+1`-st
display shows `n`), finishing with a valid bpm appends a `WorkoutEntry`
whose recorded duration text is `format_time(elapsed − 1) =
format_time(n − 1)`; in particular 5 ticks and `finish("80")` record
`"00:04"` at bpm `"80"` (see the witness). -/
theorem c3_recorded_duration (s : AppState) (exercise bpm now_iso : PyStr) (n : Nat)
    (h : pyIsdigit bpm = true) :
    (update_timer^[n] (timer_started s exercise)).elapsed_time = n ∧
    (update_timer^[n + 1] (timer_started s exercise)).time_label = _format_time n ∧
    (finish_workout (update_timer^[n] (timer_started s exercise)) bpm now_iso).1 = true ∧
    (finish_workout (update_timer^[n] (timer_started s exercise)) bpm now_iso).2.workout_data =
      s.workout_data ++ [⟨exercise, _format_time ((n : Int) - 1), bpm, now_iso⟩] := by
  have hrun : (timer_started s exercise).timer_running = true := rfl
  obtain ⟨h1, h2, h3, h4⟩ := update_timer_iterate_fields n (timer_started s exercise) hrun
  have hel : (update_timer^[n] (timer_started s exercise)).elapsed_time = (n : Int) := by
    rw [h3]; show (0 : Int) + (n : Int) = _; ring
  have hlab := update_timer_iterate_label n (timer_started s exercise) hrun
  refine ⟨hel, ?_, ?_, ?_⟩
  · rw [hlab]
    show _format_time ((0 : Int) + (n : Int)) = _
    norm_num
  · rw [finish_workout, save_workout_data_success h]
  · rw [finish_workout, save_workout_data_success h]
    simp only [finish_exercise]
    simp only [h1, h4, hel]
    rfl

/-- Witness for C3: the spec scenario — 5 ticks on "Scales", then
`finish(bpm="80")` records duration text `"00:04"` and bpm `"80"`. -/
theorem c3_witness :
    (finish_workout
        (update_timer^[5]
          (timer_started ⟨[], false, 0, [], false, 120, [], [], []⟩ ("Scales".toList)))
        ("80".toList) ("2023-01-02T03:04:05".toList)).2.workout_data =
      [⟨"Scales".toList, "00:04".toList, "80".toList, "2023-01-02T03:04:05".toList⟩] := by
  have h := c3_recorded_duration ⟨[], false, 0, [], false, 120, [], [], []⟩
    ("Scales".toList) ("80".toList) ("2023-01-02T03:04:05".toList) 5 (by decide)
  exact h.2.2.2.trans (by decide)

/-- C4, corrected: `_save_workout_data` (the finish path) fails exactly
when the bpm text is not a nonempty string of decimal digits — so the
non-positive `"0"` is accepted — and on failure nothing is appended and no
save occurs, but the metronome running flag has already been cleared
(the one mutation performed before validation). -/
theorem c4_finish_validation (s : AppState) (bpm now_iso : PyStr) :
    ((_save_workout_data s bpm now_iso).1 = false ↔ pyIsdigit bpm = false) ∧
    ((_save_workout_data s bpm now_iso).1 = false →
      (_save_workout_data s bpm now_iso).2 = {s with metronome_running := false}) := by
  unfold _save_workout_data _stop_metronome
  by_cases h : pyIsdigit bpm = true
  · simp [h]
  · simp only [Bool.not_eq_true] at h
    simp [h]

/-- Witness for C4's corrected claim: a concrete failing call mutates only
the metronome flag. -/
theorem c4_witness :
    (_save_workout_data ⟨[], false, 0, [], true, 120, [], [], []⟩ ("abc".toList)
        ("2023-01-02T03:04:05".toList)).2 =
      {(⟨[], false, 0, [], true, 120, [], [], []⟩ : AppState) with
        metronome_running := false} := by
  have h := c4_finish_validation ⟨[], false, 0, [], true, 120, [], [], []⟩
    ("abc".toList) ("2023-01-02T03:04:05".toList)
  exact h.2 (h.1.mpr (by decide))

/-- Counterexample to C4 as stated: `finish("0")` succeeds although 0 is
not a positive integer, and a failing `finish("abc")` does mutate state —
it clears a previously running metronome flag. -/
theorem c4_counterexample :
    (_save_workout_data ⟨[], false, 0, [], false, 120, [], [], []⟩ ("0".toList)
        ("2023-01-02T03:04:05".toList)).1 = true ∧
    (_save_workout_data ⟨[], false, 0, [], true, 120, [], [], []⟩ ("abc".toList)
        ("2023-01-02T03:04:05".toList)).1 = false ∧
    (_save_workout_data ⟨[], false, 0, [], true, 120, [], [], []⟩ ("abc".toList)
        ("2023-01-02T03:04:05".toList)).2 ≠
      (⟨[], false, 0, [], true, 120, [], [], []⟩ : AppState) := by
  refine ⟨by decide, by decide, by decide⟩

/-! ## Lemmas and claim theorems: statistics (C6) -/

theorem numericBpms_cons (d : WorkoutEntry) (log : List WorkoutEntry) (ex : PyStr) :
    numericBpms (d :: log) ex =
      if d.exercise = ex ∧ pyIsdigit d.bpm = true
      then digitsVal d.bpm :: numericBpms log ex
      else numericBpms log ex := by
  unfold numericBpms
  by_cases h1 : d.exercise = ex
  · by_cases h2 : pyIsdigit d.bpm = true
    · simp [List.filter_cons, h1, h2]
    · simp [List.filter_cons, h1, h2]
  · have : ¬ (d.exercise = ex ∧ pyIsdigit d.bpm = true) := fun hc => h1 hc.1
    simp [List.filter_cons, h1, this]

theorem get_best_bpm_foldl (log : List WorkoutEntry) (ex : PyStr) :
    ∀ acc : Nat,
      log.foldl (fun best d =>
        if d.exercise = ex ∧ pyIsdigit d.bpm = true
        then max best (digitsVal d.bpm) else best) acc =
      (numericBpms log ex).foldl max acc := by
  induction log with
  | nil => intro acc; rfl
  | cons d rest ih =>
    intro acc
    rw [List.foldl_cons, numericBpms_cons]
    by_cases h : d.exercise = ex ∧ pyIsdigit d.bpm = true
    · rw [if_pos h, if_pos h, List.foldl_cons, ih]
    · rw [if_neg h, if_neg h, ih]

theorem foldl_max_max? (l : List Nat) : ∀ a : Nat, l.foldl max a = (l.max?.elim a (max a)) := by
  induction l with
  | nil => intro a; rfl
  | cons c rest ih =>
    intro a
    rw [List.foldl_cons, ih, List.max?_cons]
    cases hm : rest.max? with
    | none => simp
    | some m => simp [Nat.max_assoc]

theorem foldl_add_sum (l : List Nat) : ∀ a : Nat, l.foldl (· + ·) a = a + l.sum := by
  induction l with
  | nil => intro a; simp
  | cons c rest ih =>
    intro a
    rw [List.foldl_cons, ih, List.sum_cons]
    omega

/-- The spec scenario log for C6: two "Scales" sessions, bpm 80 and 100,
on different days. -/
def c6DemoLog : List WorkoutEntry :=
  [⟨"Scales".toList, "10:00".toList, "80".toList, "2023-01-01T10:00:00".toList⟩,
   ⟨"Scales".toList, "12:00".toList, "100".toList, "2023-01-02T10:00:00".toList⟩]

/-- C6: `best_bpm` is the maximum of the numeric bpm values among entries
matching the exercise exactly (0 when there is none), `avg_bpm` is the
integer-truncated mean of those values (0 when there is none, since
Lean's `Nat` division by 0 is 0), `total_sessions` counts the matching
entries, and the 80/100 "Scales" scenario yields best 100, average 90,
2 sessions. -/
theorem c6_bpm_statistics :
    (∀ (log : List WorkoutEntry) (ex : PyStr),
       get_best_bpm log ex = ((numericBpms log ex).max?).getD 0) ∧
    (∀ (log : List WorkoutEntry) (ex : PyStr) (st : ExerciseStats),
       get_exercise_stats log ex = some st →
       st.avg_bpm = (numericBpms log ex).sum / (numericBpms log ex).length ∧
       st.total_sessions = (log.filter (fun d => d.exercise = ex)).length) ∧
    (get_best_bpm c6DemoLog ("Scales".toList) = 100 ∧
     (get_exercise_stats c6DemoLog ("Scales".toList)).map
        (fun st => (st.total_sessions, st.avg_bpm)) = some (2, 90)) := by
  refine ⟨?_, ?_, by decide, by decide⟩
  · intro log ex
    rw [get_best_bpm, get_best_bpm_foldl, foldl_max_max?]
    cases hm : (numericBpms log ex).max? with
    | none => rfl
    | some m => simp
  · intro log ex st hst
    unfold get_exercise_stats at hst
    by_cases hed : (log.filter (fun d => d.exercise = ex)).isEmpty
    · rw [if_pos hed] at hst
      injection hst with hst
      subst hst
      have hnil : log.filter (fun d => d.exercise = ex) = [] :=
        List.isEmpty_iff.mp hed
      have hnb : numericBpms log ex = [] := by
        unfold numericBpms
        rw [hnil]
        rfl
      rw [hnb, hnil]
      exact ⟨rfl, rfl⟩
    · rw [if_neg hed] at hst
      simp only [Option.bind_eq_bind, Option.bind_eq_some] at hst
      obtain ⟨times, htimes, hpure⟩ := hst
      injection hpure with hpure
      subst hpure
      constructor
      · show (if 0 < (List.filter (fun d => pyIsdigit d.bpm)
                    (List.filter (fun d => d.exercise = ex) log)).length
              then _ / _ else 0) = _
        have hlen : (numericBpms log ex).length =
            (List.filter (fun d => pyIsdigit d.bpm)
              (List.filter (fun d => d.exercise = ex) log)).length := by
          unfold numericBpms
          rw [List.length_map]
        have hsum : (numericBpms log ex).sum =
            ((List.filter (fun d => pyIsdigit d.bpm)
                (List.filter (fun d => d.exercise = ex) log)).map
              (fun d => digitsVal d.bpm)).foldl (· + ·) 0 := by
          unfold numericBpms
          rw [foldl_add_sum]
          omega
        by_cases hpos : 0 < (List.filter (fun d => pyIsdigit d.bpm)
            (List.filter (fun d => d.exercise = ex) log)).length
        · rw [if_pos hpos, hsum, hlen]
        · rw [if_neg hpos]
          have h0 : (List.filter (fun d => pyIsdigit d.bpm)
              (List.filter (fun d => d.exercise = ex) log)).length = 0 := by omega
          rw [hlen, h0, Nat.div_zero]
      · rfl

/-- Witness for C6 on the demo log (it discharges the premiss
`get_exercise_stats = some st` at a concrete state). -/
theorem c6_witness :
    (⟨2, 1320, "22:00".toList, 90⟩ : ExerciseStats).avg_bpm =
      (numericBpms c6DemoLog ("Scales".toList)).sum /
        (numericBpms c6DemoLog ("Scales".toList)).length :=
  (c6_bpm_statistics.2.1 c6DemoLog ("Scales".toList)
    ⟨2, 1320, "22:00".toList, 90⟩ (by decide)).1

/-! ## Lemmas and claim theorems: `delete_day` (C8) -/

theorem selectDay_eq (date : PyStr) (log : List WorkoutEntry)
    (h : ∀ e ∈ log, (fromisoformat e.timestamp).isSome) :
    selectDay date log =
      some (log.filter (fun e => decide (entryDay e = some date))) := by
  induction log with
  | nil => rfl
  | cons e rest ih =>
    have he := h e (List.mem_cons_self e rest)
    obtain ⟨dt, hdt⟩ := Option.isSome_iff_exists.mp he
    have hday : entryDay e = some (strftimeDMY dt) := by
      unfold entryDay
      rw [hdt]
      rfl
    unfold selectDay
    rw [hdt, ih (fun x hx => h x (List.mem_cons_of_mem e hx))]
    simp only [List.filter_cons]
    by_cases hd : strftimeDMY dt = date
    · have hdec : decide (entryDay e = some date) = true := by
        rw [hday, hd]; simp
      simp [hd, hdec]
    · have hdec : decide (entryDay e = some date) = false := by
        rw [hday]
        simp only [decide_eq_false_iff_not]
        intro hc
        exact hd (Option.some_inj.mp hc)
      simp [hd, hdec]

theorem foldl_erase_of_not_mem {α : Type} [DecidableEq α] {x : α} (ms : List α) :
    ∀ l : List α, (∀ m ∈ ms, m ≠ x) →
      ms.foldl List.erase (x :: l) = x :: ms.foldl List.erase l := by
  induction ms with
  | nil => intro l _; rfl
  | cons m ms ih =>
    intro l hms
    have hmx : m ≠ x := hms m (List.mem_cons_self m ms)
    rw [List.foldl_cons, List.foldl_cons,
        List.erase_cons_tail (by simp only [beq_iff_eq]; exact fun e => hmx e.symm)]
    exact ih (l.erase m) (fun m' hm' => hms m' (List.mem_cons_of_mem m hm'))

theorem foldl_erase_filter {α : Type} [DecidableEq α] (l : List α) (p : α → Bool) :
    (l.filter p).foldl List.erase l = l.filter (fun a => !(p a)) := by
  induction l with
  | nil => rfl
  | cons x xs ih =>
    by_cases hp : p x = true
    · rw [List.filter_cons, if_pos hp, List.filter_cons]
      have : (!p x) = false := by rw [hp]; rfl
      rw [this, if_neg (by simp)]
      rw [List.foldl_cons, List.erase_cons_head]
      exact ih
    · have hpx : p x = false := by revert hp; cases p x <;> simp
      rw [List.filter_cons, hpx, if_neg (by simp), List.filter_cons]
      have : (!p x) = true := by rw [hpx]; rfl
      rw [this, if_pos rfl]
      rw [foldl_erase_of_not_mem _ _ (fun m hm => by
        intro he
        subst he
        have := List.of_mem_filter hm
        rw [hpx] at this
        exact absurd this (by simp))]
      rw [ih]

/-- C8: with every timestamp in the log parseable (which is true of every
log the program builds — both `load_data` and `_create_exercise_data`
store ISO strings), `delete_day(d)` with a confirming user removes exactly
the entries whose formatted day equals `d`, keeping all others in their
original relative order, and when nothing matches it reports "no entries",
leaves the log unchanged and performs no save (the returned flag records
whether `save_data` ran). -/
theorem c8_delete_day (log : List WorkoutEntry) (date : PyStr)
    (h : ∀ e ∈ log, (fromisoformat e.timestamp).isSome) :
    delete_day log date true =
      some (log.filter (fun e => !(decide (entryDay e = some date))),
            !(log.filter (fun e => decide (entryDay e = some date))).isEmpty) := by
  unfold delete_day
  rw [selectDay_eq date log h]
  show (if (List.filter (fun e => decide (entryDay e = some date)) log).isEmpty = true
        then some (log, false)
        else if true = true
        then some (List.foldl List.erase log
                    (List.filter (fun e => decide (entryDay e = some date)) log), true)
        else some (log, false)) = _
  by_cases hm : (log.filter (fun e => decide (entryDay e = some date))).isEmpty
  · rw [if_pos hm, hm]
    have hnil : log.filter (fun e => decide (entryDay e = some date)) = [] :=
      List.isEmpty_iff.mp hm
    have : log.filter (fun e => !(decide (entryDay e = some date))) = log := by
      rw [List.filter_eq_self]
      intro a ha
      by_contra hc
      have hpa : decide (entryDay a = some date) = true := by
        revert hc; cases decide (entryDay a = some date) <;> simp
      have : a ∈ log.filter (fun e => decide (entryDay e = some date)) :=
        List.mem_filter.mpr ⟨ha, hpa⟩
      rw [hnil] at this
      exact absurd this (List.not_mem_nil a)
    rw [this]
    rfl
  · rw [if_neg hm, if_pos rfl]
    have hb : (!(log.filter (fun e => decide (entryDay e = some date))).isEmpty) = true := by
      revert hm
      cases (log.filter (fun e => decide (entryDay e = some date))).isEmpty <;> simp
    rw [hb, foldl_erase_filter]

/-- Witness for C8: deleting the day of the first entry keeps exactly the
second and triggers a save. -/
theorem c8_witness :
    delete_day
        [⟨"Scales".toList, "00:04".toList, "80".toList, "2023-01-02T03:04:05".toList⟩,
         ⟨"Bends".toList, "01:01".toList, "100".toList, "2024-02-29T03:04:05".toList⟩]
        ("02 January 2023".toList) true =
      some ([⟨"Bends".toList, "01:01".toList, "100".toList, "2024-02-29T03:04:05".toList⟩],
            true) := by
  have h := c8_delete_day
    [⟨"Scales".toList, "00:04".toList, "80".toList, "2023-01-02T03:04:05".toList⟩,
     ⟨"Bends".toList, "01:01".toList, "100".toList, "2024-02-29T03:04:05".toList⟩]
    ("02 January 2023".toList) (by decide)
  exact h.trans (by decide)

/-! ## Lemmas: the catalog invariant (C1) -/

theorem natSum_pos_iff (l : List Nat) : 0 < l.sum ↔ ∃ x ∈ l, 0 < x := by
  induction l with
  | nil => simp
  | cons a rest ih =>
    rw [List.sum_cons]
    constructor
    · intro h
      by_cases ha : 0 < a
      · exact ⟨a, List.mem_cons_self a rest, ha⟩
      · have : 0 < rest.sum := by omega
        obtain ⟨x, hx, hpos⟩ := ih.mp this
        exact ⟨x, List.mem_cons_of_mem a hx, hpos⟩
    · rintro ⟨x, hx, hpos⟩
      rcases List.mem_cons.mp hx with rfl | hx'
      · omega
      · have : 0 < rest.sum := ih.mpr ⟨x, hx', hpos⟩
        omega

theorem sum_map_add {α : Type} (l : List α) (f g : α → Nat) :
    (l.map (fun p => f p + g p)).sum = (l.map f).sum + (l.map g).sum := by
  induction l with
  | nil => rfl
  | cons a rest ih =>
    simp only [List.map_cons, List.sum_cons, ih]
    omega

theorem occCount_pos_iff (c : Catalog) (n : PyStr) :
    0 < occCount c n ↔ n ∈ c.root ∨ ∃ p ∈ c.folders, n ∈ p.2 := by
  unfold occCount
  constructor
  · intro h
    by_cases hr : 0 < c.root.count n
    · exact Or.inl (List.count_pos_iff.mp hr)
    · have : 0 < ((c.folders.map (fun p => p.2.count n))).sum := by omega
      obtain ⟨x, hx, hpos⟩ := (natSum_pos_iff _).mp this
      obtain ⟨p, hp, rfl⟩ := List.mem_map.mp hx
      exact Or.inr ⟨p, hp, List.count_pos_iff.mp hpos⟩
  · rintro (hn | ⟨p, hp, hn⟩)
    · have := List.count_pos_iff.mpr hn
      omega
    · have hx : p.2.count n ∈ c.folders.map (fun p => p.2.count n) :=
        List.mem_map.mpr ⟨p, hp, rfl⟩
      have := (natSum_pos_iff _).mpr ⟨_, hx, List.count_pos_iff.mpr hn⟩
      omega

theorem mem_insertSorted (x a : PyStr) (l : List PyStr) :
    a ∈ insertSorted x l ↔ a = x ∨ a ∈ l := by
  induction l with
  | nil => simp [insertSorted]
  | cons y ys ih =>
    unfold insertSorted
    by_cases h : strLe x y
    · rw [if_pos h]
      simp [List.mem_cons]
    · rw [if_neg h]
      simp only [List.mem_cons, ih]
      tauto

theorem mem_sortStrs (a : PyStr) (l : List PyStr) : a ∈ sortStrs l ↔ a ∈ l := by
  induction l with
  | nil => simp [sortStrs]
  | cons x xs ih =>
    show a ∈ insertSorted x (sortStrs xs) ↔ _
    rw [mem_insertSorted, ih]
    simp [List.mem_cons]

theorem renameOk_rename_iff (c : Catalog) (o ni : PyStr) :
    renameOk c (CatOp.rename o ni) = true ↔
      (pyStrip ni = [] ∨ pyStrip ni = o ∨ pyStrip ni ∉ flatten_exercises c) := by
  unfold renameOk
  simp [Bool.or_eq_true, decide_eq_true_eq, Bool.not_eq_true',
        decide_eq_false_iff_not]
  tauto

theorem mem_flatten_exercises (c : Catalog) (n : PyStr) :
    n ∈ flatten_exercises c ↔ n ∈ c.root ∨ ∃ p ∈ c.folders, n ∈ p.2 := by
  unfold flatten_exercises
  rw [mem_sortStrs, List.mem_dedup, List.mem_append, List.mem_flatten]
  simp only [List.mem_map]
  constructor
  · rintro (h | ⟨l, ⟨p, hp, rfl⟩, hn⟩)
    · exact Or.inl h
    · exact Or.inr ⟨p, hp, hn⟩
  · rintro (h | ⟨p, hp, hn⟩)
    · exact Or.inl h
    · exact Or.inr ⟨p.2, ⟨p, hp, rfl⟩, hn⟩

theorem occCount_eq_zero_of_not_mem_flatten {c : Catalog} {n : PyStr}
    (h : n ∉ flatten_exercises c) : occCount c n = 0 := by
  by_contra hc
  exact h ((mem_flatten_exercises c n).mpr
    ((occCount_pos_iff c n).mp (by omega)))

theorem occCount_set_info (c : Catalog) (m : List (PyStr × ExerciseInfo)) (n : PyStr) :
    occCount {c with info := m} n = occCount c n := rfl

theorem occCount_create_folder (c : Catalog) (name n : PyStr) :
    occCount (create_folder c name) n = occCount c n := by
  unfold create_folder
  split
  · rfl
  · split
    · rfl
    · show c.root.count n +
        ((c.folders ++ [(pyStrip name, ([] : List PyStr))]).map
          (fun p : PyStr × List PyStr => p.2.count n)).sum = _
      rw [List.map_append, List.sum_append]
      simp [occCount]

theorem appendToFolder_counts (folders : List (PyStr × List PyStr)) (k x n : PyStr) :
    ((appendToFolder folders k x).map (fun p => p.2.count n)).sum =
      (folders.map (fun p => p.2.count n)).sum + (if x = n then 1 else 0) := by
  induction folders with
  | nil =>
    simp [appendToFolder, List.count_singleton]
  | cons p rest ih =>
    obtain ⟨k', l⟩ := p
    unfold appendToFolder
    by_cases hk : k' = k
    · rw [if_pos hk]
      simp only [List.map_cons, List.sum_cons, List.count_append, List.count_singleton]
      by_cases hx : x = n
      · simp only [if_pos hx, if_pos ((beq_iff_eq).mpr hx)]
        omega
      · simp only [if_neg hx, if_neg (fun hb => hx ((beq_iff_eq).mp hb))]
        omega
    · rw [if_neg hk]
      simp only [List.map_cons, List.sum_cons, ih]
      omega

theorem uniqueOcc_add_exercise (c : Catalog) (name folder link note : PyStr)
    (h : UniqueOcc c) : UniqueOcc (add_exercise c name folder link note) := by
  unfold add_exercise
  split
  · exact h
  · split
    · exact h
    · next hmem =>
      split
      · intro n
        show (c.root ++ [pyStrip name]).count n +
          (c.folders.map (fun p => p.2.count n)).sum ≤ 1
        rw [List.count_append, List.count_singleton]
        by_cases hn : pyStrip name = n
        · subst hn
          have h0 : occCount c (pyStrip name) = 0 :=
            occCount_eq_zero_of_not_mem_flatten hmem
          unfold occCount at h0
          rw [if_pos (beq_self_eq_true (pyStrip name))]
          omega
        · rw [if_neg (fun hb => hn ((beq_iff_eq).mp hb))]
          have := h n
          unfold occCount at this
          omega
      · intro n
        show c.root.count n +
          ((appendToFolder c.folders folder (pyStrip name)).map
            (fun p => p.2.count n)).sum ≤ 1
        rw [appendToFolder_counts]
        by_cases hn : pyStrip name = n
        · subst hn
          have h0 : occCount c (pyStrip name) = 0 :=
            occCount_eq_zero_of_not_mem_flatten hmem
          unfold occCount at h0
          rw [if_pos rfl]
          omega
        · rw [if_neg hn]
          have := h n
          unfold occCount at this
          omega

theorem if_mem_erase (l : List PyStr) (x : PyStr) :
    (if x ∈ l then l.erase x else l) = l.erase x := by
  by_cases hx : x ∈ l
  · rw [if_pos hx]
  · rw [if_neg hx, List.erase_of_not_mem hx]

theorem removeFromAllFolders_count_self (folders : List (PyStr × List PyStr)) (x : PyStr)
    (hle : ∀ p ∈ folders, p.2.count x ≤ 1) :
    ((removeFromAllFolders folders x).map (fun p => p.2.count x)).sum = 0 := by
  apply List.sum_eq_zero
  intro v hv
  obtain ⟨q, hq, rfl⟩ := List.mem_map.mp hv
  unfold removeFromAllFolders at hq
  obtain ⟨p, hp, rfl⟩ := List.mem_map.mp hq
  show (if x ∈ p.2 then p.2.erase x else p.2).count x = 0
  rw [if_mem_erase]
  have h1 := List.count_erase_self x p.2
  have h2 := hle p hp
  omega

theorem removeFromAllFolders_count_other (folders : List (PyStr × List PyStr))
    (x n : PyStr) (hn : n ≠ x) :
    ((removeFromAllFolders folders x).map (fun p => p.2.count n)).sum =
      (folders.map (fun p => p.2.count n)).sum := by
  unfold removeFromAllFolders
  rw [List.map_map]
  apply congrArg
  apply List.map_congr_left
  intro p _
  show (if x ∈ p.2 then p.2.erase x else p.2).count n = p.2.count n
  rw [if_mem_erase]
  exact List.count_erase_of_ne hn p.2

theorem appendToFolderIfAbsent_count_self (folders : List (PyStr × List PyStr))
    (k x : PyStr) (h0 : ∀ p ∈ folders, x ∉ p.2) :
    ((appendToFolderIfAbsent folders k x).map (fun p => p.2.count x)).sum = 1 := by
  induction folders with
  | nil =>
    simp [appendToFolderIfAbsent, List.count_singleton]
  | cons p rest ih =>
    obtain ⟨k', l⟩ := p
    have hxl : x ∉ l := h0 (k', l) (List.mem_cons_self _ _)
    have hrest : ∀ p ∈ rest, x ∉ p.2 := fun p hp => h0 p (List.mem_cons_of_mem _ hp)
    unfold appendToFolderIfAbsent
    by_cases hk : k' = k
    · rw [if_pos hk, if_neg hxl]
      simp only [List.map_cons, List.sum_cons, List.count_append, List.count_singleton]
      have hl0 : l.count x = 0 := by
        have := List.count_pos_iff (a := x) (l := l)
        by_contra hc
        exact hxl (this.mp (by omega))
      have hsum : (rest.map (fun p => p.2.count x)).sum = 0 := by
        apply List.sum_eq_zero
        intro v hv
        obtain ⟨q, hq, rfl⟩ := List.mem_map.mp hv
        have := List.count_pos_iff (a := x) (l := q.2)
        by_contra hc
        exact hrest q hq (this.mp (by omega))
      rw [hl0, hsum]
      simp
    · rw [if_neg hk]
      simp only [List.map_cons, List.sum_cons, ih hrest]
      have hl0 : l.count x = 0 := by
        have := List.count_pos_iff (a := x) (l := l)
        by_contra hc
        exact hxl (this.mp (by omega))
      rw [hl0]

theorem appendToFolderIfAbsent_count_other (folders : List (PyStr × List PyStr))
    (k x n : PyStr) (hn : n ≠ x) :
    ((appendToFolderIfAbsent folders k x).map (fun p => p.2.count n)).sum =
      (folders.map (fun p => p.2.count n)).sum := by
  induction folders with
  | nil =>
    show ([x].count n + 0) = 0
    rw [List.count_singleton, if_neg (fun hb => hn ((beq_iff_eq).mp hb).symm)]
  | cons p rest ih =>
    obtain ⟨k', l⟩ := p
    unfold appendToFolderIfAbsent
    by_cases hk : k' = k
    · rw [if_pos hk]
      simp only [List.map_cons, List.sum_cons]
      by_cases hx : x ∈ l
      · rw [if_pos hx]
      · rw [if_neg hx, List.count_append, List.count_singleton,
            if_neg (fun hb => hn ((beq_iff_eq).mp hb).symm)]
        omega
    · rw [if_neg hk]
      simp only [List.map_cons, List.sum_cons, ih]

theorem folder_count_le_occCount (c : Catalog) (n : PyStr) :
    ∀ p ∈ c.folders, p.2.count n ≤ occCount c n := by
  intro p hp
  unfold occCount
  have hmem : p.2.count n ∈ c.folders.map (fun p => p.2.count n) :=
    List.mem_map.mpr ⟨p, hp, rfl⟩
  have := List.single_le_sum (fun (x : Nat) _ => Nat.zero_le x) _ hmem
  omega

theorem uniqueOcc_move (c : Catalog) (name folder : PyStr) (h : UniqueOcc c) :
    UniqueOcc (move_to_folder c name folder) := by
  intro n
  unfold move_to_folder
  show (if name ∈ c.root then c.root.erase name else c.root).count n +
    ((appendToFolderIfAbsent (removeFromAllFolders c.folders name) folder name).map
      (fun p => p.2.count n)).sum ≤ 1
  rw [if_mem_erase]
  by_cases hn : n = name
  · subst hn
    have hremoved : ((removeFromAllFolders c.folders n).map
        (fun p => p.2.count n)).sum = 0 := by
      apply removeFromAllFolders_count_self
      intro p hp
      have h1 := folder_count_le_occCount c n p hp
      have h2 := h n
      omega
    have habsent : ∀ p ∈ removeFromAllFolders c.folders n, n ∉ p.2 := by
      intro p hp hmem
      have hpos : 0 < p.2.count n := List.count_pos_iff.mpr hmem
      have hx : p.2.count n ∈ (removeFromAllFolders c.folders n).map
          (fun p => p.2.count n) := List.mem_map.mpr ⟨p, hp, rfl⟩
      have := List.single_le_sum (fun (x : Nat) _ => Nat.zero_le x) _ hx
      omega
    rw [appendToFolderIfAbsent_count_self _ _ _ habsent]
    have h1 := List.count_erase_self n c.root
    have h2 := h n
    unfold occCount at h2
    omega
  · rw [appendToFolderIfAbsent_count_other _ _ _ _ hn,
        removeFromAllFolders_count_other _ _ _ hn,
        List.count_erase_of_ne hn]
    have := h n
    unfold occCount at this
    omega

theorem replaceFirst_cons_head (xs : List PyStr) (old new : PyStr) :
    replaceFirst (old :: xs) old new = new :: xs := by
  simp [replaceFirst]

theorem replaceFirst_cons_tail {x old : PyStr} (xs : List PyStr) (new : PyStr)
    (hx : x ≠ old) : replaceFirst (x :: xs) old new = x :: replaceFirst xs old new := by
  simp [replaceFirst, hx]

theorem mem_cons_ne {x old : PyStr} (xs : List PyStr) (hx : x ≠ old) :
    old ∈ x :: xs ↔ old ∈ xs :=
  ⟨fun hm => (List.mem_cons.mp hm).resolve_left (fun he => hx he.symm),
   List.mem_cons_of_mem x⟩

theorem count_replaceFirst_new (l : List PyStr) (old new : PyStr) (hne : old ≠ new) :
    (replaceFirst l old new).count new =
      l.count new + (if old ∈ l then 1 else 0) := by
  induction l with
  | nil => simp [replaceFirst]
  | cons x xs ih =>
    by_cases hx : x = old
    · subst hx
      rw [replaceFirst_cons_head, List.count_cons, List.count_cons,
          if_pos (beq_self_eq_true new),
          if_neg (fun hb => hne ((beq_iff_eq).mp hb)),
          if_pos (List.mem_cons_self x xs)]
    · rw [replaceFirst_cons_tail xs new hx, List.count_cons, List.count_cons, ih]
      by_cases ho : old ∈ xs
      · rw [if_pos ho, if_pos ((mem_cons_ne xs hx).mpr ho)]
        omega
      · rw [if_neg ho, if_neg (fun hm => ho ((mem_cons_ne xs hx).mp hm))]
        omega

theorem count_replaceFirst_old (l : List PyStr) (old new : PyStr) (hne : old ≠ new) :
    (replaceFirst l old new).count old =
      l.count old - (if old ∈ l then 1 else 0) := by
  induction l with
  | nil => simp [replaceFirst]
  | cons x xs ih =>
    by_cases hx : x = old
    · subst hx
      rw [replaceFirst_cons_head, List.count_cons, List.count_cons,
          if_pos (beq_self_eq_true x),
          if_neg (fun hb => hne ((beq_iff_eq).mp hb).symm),
          if_pos (List.mem_cons_self x xs)]
      omega
    · rw [replaceFirst_cons_tail xs new hx, List.count_cons, List.count_cons, ih,
          if_neg (fun hb => hx ((beq_iff_eq).mp hb))]
      by_cases ho : old ∈ xs
      · rw [if_pos ho, if_pos ((mem_cons_ne xs hx).mpr ho)]
        have : 0 < List.count old xs := List.count_pos_iff.mpr ho
        omega
      · rw [if_neg ho, if_neg (fun hm => ho ((mem_cons_ne xs hx).mp hm))]
        omega

theorem count_replaceFirst_other (l : List PyStr) (old new y : PyStr)
    (h1 : y ≠ old) (h2 : y ≠ new) :
    (replaceFirst l old new).count y = l.count y := by
  induction l with
  | nil => simp [replaceFirst]
  | cons x xs ih =>
    by_cases hx : x = old
    · subst hx
      rw [replaceFirst_cons_head, List.count_cons, List.count_cons,
          if_neg (fun hb => h2 ((beq_iff_eq).mp hb).symm),
          if_neg (fun hb => h1 ((beq_iff_eq).mp hb).symm)]
    · rw [replaceFirst_cons_tail xs new hx, List.count_cons, List.count_cons, ih]

theorem mem_ind_le_count (l : List PyStr) (x : PyStr) :
    (if x ∈ l then 1 else 0) ≤ l.count x := by
  by_cases hx : x ∈ l
  · rw [if_pos hx]
    exact List.count_pos_iff.mpr hx
  · rw [if_neg hx]
    omega

theorem uniqueOcc_rename (c : Catalog) (old_name new_input : PyStr) (h : UniqueOcc c)
    (hok : renameOk c (CatOp.rename old_name new_input) = true) :
    UniqueOcc (rename_exercise c old_name new_input) := by
  unfold rename_exercise
  split
  · exact h
  · next hcond =>
    push_neg at hcond
    obtain ⟨hne_nil, hne_old⟩ := hcond
    have hnotmem : pyStrip new_input ∉ flatten_exercises c := by
      rcases (renameOk_rename_iff c old_name new_input).mp hok with h1 | h1 | h1
      · exact absurd h1 hne_nil
      · exact absurd h1 hne_old
      · exact h1
    have h0 : occCount c (pyStrip new_input) = 0 :=
      occCount_eq_zero_of_not_mem_flatten hnotmem
    have hold_ne_new : old_name ≠ pyStrip new_input := fun he => hne_old he.symm
    intro n
    show (replaceFirst c.root old_name (pyStrip new_input)).count n +
      ((c.folders.map (fun p => (p.1, replaceFirst p.2 old_name (pyStrip new_input)))).map
        (fun p => p.2.count n)).sum ≤ 1
    rw [List.map_map]
    by_cases hn_new : n = pyStrip new_input
    · rw [hn_new, count_replaceFirst_new _ _ _ hold_ne_new]
      have hmap : (c.folders.map
          ((fun p => p.2.count (pyStrip new_input)) ∘
            (fun p => (p.1, replaceFirst p.2 old_name (pyStrip new_input))))).sum =
          (c.folders.map (fun p =>
            p.2.count (pyStrip new_input) + (if old_name ∈ p.2 then 1 else 0))).sum := by
        apply congrArg
        apply List.map_congr_left
        intro p _
        simp only [Function.comp_apply]
        exact count_replaceFirst_new _ _ _ hold_ne_new
      rw [hmap, sum_map_add]
      unfold occCount at h0
      have hind_root := mem_ind_le_count c.root old_name
      have hind_folders : ((c.folders.map (fun p =>
          if old_name ∈ p.2 then 1 else 0)).sum : Nat) ≤
          (c.folders.map (fun p => p.2.count old_name)).sum := by
        apply List.sum_le_sum
        intro p _
        exact mem_ind_le_count p.2 old_name
      have hocc_old := h old_name
      unfold occCount at hocc_old
      omega
    · by_cases hn_old : n = old_name
      · rw [hn_old, count_replaceFirst_old _ _ _ hold_ne_new]
        have hmap : (c.folders.map
            ((fun p => p.2.count old_name) ∘
              (fun p => (p.1, replaceFirst p.2 old_name (pyStrip new_input))))).sum =
            (c.folders.map (fun p =>
              p.2.count old_name - (if old_name ∈ p.2 then 1 else 0))).sum := by
          apply congrArg
          apply List.map_congr_left
          intro p _
          simp only [Function.comp_apply]
          exact count_replaceFirst_old _ _ _ hold_ne_new
        rw [hmap]
        have hle : (c.folders.map (fun p =>
            p.2.count old_name - (if old_name ∈ p.2 then 1 else 0))).sum ≤
            (c.folders.map (fun p => p.2.count old_name)).sum := by
          apply List.sum_le_sum
          intro p _
          omega
        have hocc := h old_name
        unfold occCount at hocc
        have hind := mem_ind_le_count c.root old_name
        omega
      · rw [count_replaceFirst_other _ _ _ _ hn_old hn_new]
        have hmap : (c.folders.map
            ((fun p => p.2.count n) ∘
              (fun p => (p.1, replaceFirst p.2 old_name (pyStrip new_input))))).sum =
            (c.folders.map (fun p => p.2.count n)).sum := by
          apply congrArg
          apply List.map_congr_left
          intro p _
          simp only [Function.comp_apply]
          exact count_replaceFirst_other _ _ _ _ hn_old hn_new
        rw [hmap]
        have := h n
        unfold occCount at this
        omega

theorem uniqueOcc_delete (c : Catalog) (exercise : PyStr) (h : UniqueOcc c) :
    UniqueOcc (delete_exercise c exercise) := by
  intro n
  unfold delete_exercise
  show (if exercise ∈ c.root then c.root.erase exercise else c.root).count n +
    ((removeFromAllFolders c.folders exercise).map (fun p => p.2.count n)).sum ≤ 1
  rw [if_mem_erase]
  have hroot : (c.root.erase exercise).count n ≤ c.root.count n :=
    (List.erase_sublist exercise c.root).count_le n
  have hfolders : ((removeFromAllFolders c.folders exercise).map
      (fun p => p.2.count n)).sum ≤ (c.folders.map (fun p => p.2.count n)).sum := by
    unfold removeFromAllFolders
    rw [List.map_map]
    apply List.sum_le_sum
    intro p _
    show (if exercise ∈ p.2 then p.2.erase exercise else p.2).count n ≤ p.2.count n
    rw [if_mem_erase]
    exact (List.erase_sublist exercise p.2).count_le n
  have := h n
  unfold occCount at this
  omega

theorem uniqueOcc_applyOp (c : Catalog) (op : CatOp) (h : UniqueOcc c)
    (hok : renameOk c op = true) : UniqueOcc (applyOp c op) := by
  cases op with
  | create_folder name =>
    intro n
    rw [applyOp, occCount_create_folder]
    exact h n
  | add_exercise name folder link note => exact uniqueOcc_add_exercise c _ _ _ _ h
  | move name folder => exact uniqueOcc_move c _ _ h
  | rename o ni => exact uniqueOcc_rename c _ _ h hok
  | delete name => exact uniqueOcc_delete c _ h

theorem uniqueOcc_applyOps (ops : List CatOp) :
    ∀ c : Catalog, UniqueOcc c → okSeq c ops = true → UniqueOcc (applyOps c ops) := by
  induction ops with
  | nil => intro c h _; exact h
  | cons op rest ih =>
    intro c h hok
    unfold okSeq at hok
    rw [Bool.and_eq_true] at hok
    exact ih (applyOp c op) (uniqueOcc_applyOp c op h hok.1) hok.2

theorem atMostOneContainer_of_uniqueOcc (c : Catalog) (h : UniqueOcc c) :
    AtMostOneContainer c := by
  intro n
  have hcc : containerCount c n ≤ occCount c n := by
    unfold containerCount occCount
    have h1 := mem_ind_le_count c.root n
    have h2 : (c.folders.filter (fun p => n ∈ p.2)).length ≤
        (c.folders.map (fun p => p.2.count n)).sum := by
      induction c.folders with
      | nil => simp
      | cons p rest ih =>
        rw [List.filter_cons]
        by_cases hp : n ∈ p.2
        · rw [if_pos (by simpa using hp)]
          simp only [List.length_cons, List.map_cons, List.sum_cons]
          have := List.count_pos_iff.mpr hp
          omega
        · rw [if_neg (by simpa using hp)]
          simp only [List.map_cons, List.sum_cons]
          omega
    omega
  have := h n
  omega

/-! ## Claim theorems: C1 -/

/-- C1, corrected: the single-location invariant — strengthened to "each
name occurs at most once across root and all folders", which implies the
claimed at-most-one-container property — survives every sequence of
`create_folder` / `add_exercise` / `move` / `delete`, and every `rename`
whose stripped new name is empty, unchanged, or not already present in
the catalog at the moment of the rename (`okSeq`).  Renaming onto an
existing name breaks the invariant (see the counterexample). -/
theorem c1_catalog_invariant (c : Catalog) (ops : List CatOp)
    (h : UniqueOcc c) (hok : okSeq c ops = true) :
    UniqueOcc (applyOps c ops) ∧ AtMostOneContainer (applyOps c ops) := by
  have hu := uniqueOcc_applyOps ops c h hok
  exact ⟨hu, atMostOneContainer_of_uniqueOcc _ hu⟩

/-- Witness for C1's corrected claim: a concrete command sequence (create
a folder, add an exercise, move it there, rename it to a fresh name,
delete it) keeps the invariant. -/
theorem c1_witness :
    UniqueOcc (applyOps ⟨[], [], []⟩
      [CatOp.create_folder ("WarmUp".toList),
       CatOp.add_exercise ("Riff".toList) ("Root".toList) [] [],
       CatOp.move ("Riff".toList) ("WarmUp".toList),
       CatOp.rename ("Riff".toList) ("Lick".toList),
       CatOp.delete ("Lick".toList)]) ∧
    AtMostOneContainer (applyOps ⟨[], [], []⟩
      [CatOp.create_folder ("WarmUp".toList),
       CatOp.add_exercise ("Riff".toList) ("Root".toList) [] [],
       CatOp.move ("Riff".toList) ("WarmUp".toList),
       CatOp.rename ("Riff".toList) ("Lick".toList),
       CatOp.delete ("Lick".toList)]) :=
  c1_catalog_invariant ⟨[], [], []⟩ _
    (fun n => by simp [occCount, List.count_nil]) (by decide)

/-- Counterexample to C1 as stated: in the catalog `{root: ["A"],
folders: {"F": ["B"]}}` every name sits in exactly one container, yet
`rename("A", "B")` — which performs no duplicate check — leaves `"B"` in
both root and folder `"F"`. -/
theorem c1_counterexample :
    AtMostOneContainer ⟨["A".toList], [("F".toList, ["B".toList])], []⟩ ∧
    ¬ AtMostOneContainer
        (applyOps ⟨["A".toList], [("F".toList, ["B".toList])], []⟩
          [CatOp.rename ("A".toList) ("B".toList)]) := by
  constructor
  · apply atMostOneContainer_of_uniqueOcc
    intro n
    show List.count n ["A".toList] + (List.count n ["B".toList] + 0) ≤ 1
    rw [List.count_singleton, List.count_singleton]
    by_cases h1 : n = "A".toList
    · subst h1
      decide
    · by_cases h2 : n = "B".toList
      · subst h2
        decide
      · rw [if_neg (fun hb => h1 ((beq_iff_eq).mp hb).symm),
            if_neg (fun hb => h2 ((beq_iff_eq).mp hb).symm)]
        omega
  · intro hc
    exact absurd (hc ("B".toList)) (by decide)

/-! ## The persistence round trip (C2)

The claim quantifies over logs whose entries have parseable timestamps,
valid durations and valid bpm tokens.  `validDuration` and the extra
conditions on exercise names that the corrected claim needs are stated
here; the counterexample shows the round trip fails without them. -/

/-- A duration text of the shape `MM:SS` or `HH:MM:SS`: two or three
nonempty all-digit fields separated by `':'`. -/
def validDuration (t : PyStr) : Prop :=
  ((pySplit ':' t).length = 2 ∨ (pySplit ':' t).length = 3) ∧
  ∀ p ∈ pySplit ':' t, p ≠ [] ∧ ∀ c ∈ p, c.isDigit = true

instance (t : PyStr) : Decidable (validDuration t) := by
  unfold validDuration; infer_instance

/-- The conditions on an exercise name under which its saved table row
survives `load_data`'s filters verbatim: nonempty, no leading or trailing
whitespace, not starting with `'-'`, no `'|'` or newline, not containing
the substring `"BPM"`, and not equal to the literal column header. -/
def SafeExerciseName (ex : PyStr) : Prop :=
  ex ≠ [] ∧
  (∀ c, ex.head? = some c → pyIsSpace c = false) ∧
  (∀ c, ex.getLast? = some c → pyIsSpace c = false) ∧
  ex.head? ≠ some '-' ∧
  '|' ∉ ex ∧ '\n' ∉ ex ∧
  hasSub ("BPM".toList) ex = false ∧
  ex ≠ "Exercise Name".toList

instance (ex : PyStr) : Decidable (SafeExerciseName ex) := by
  unfold SafeExerciseName; infer_instance

/-- An entry the corrected round-trip claim covers. -/
def SafeEntry (e : WorkoutEntry) : Prop :=
  (fromisoformat e.timestamp).isSome = true ∧ validDuration e.time ∧
  pyIsdigit e.bpm = true ∧ SafeExerciseName e.exercise

instance (e : WorkoutEntry) : Decidable (SafeEntry e) := by
  unfold SafeEntry; infer_instance

/-- Join a list of lines, terminating each with a newline. -/
def joinNL (L : List PyStr) : PyStr := (L.map (fun l => l ++ ['\n'])).flatten

/-- The lines `save_data` writes for one day. -/
def blockLines (days : List (PyStr × List WorkoutEntry)) (date : PyStr) : List PyStr :=
  ("## ".toList ++ date) :: [] :: tableHeaderLine :: tableSepLine ::
  ((lookupDay days date).map rowLine ++ [[]])

/-- All lines of the saved file, in order. -/
def saveLines (log : List WorkoutEntry) : List PyStr :=
  "# Guitar Exercises".toList :: [] ::
  (if (_group_data_by_days log).isEmpty then ["Workout history is empty.".toList]
   else ((_sort_dates ((_group_data_by_days log).map Prod.fst)).map
           (blockLines (_group_data_by_days log))).flatten)

/-! ## Lemmas: ISO timestamps and the `%d %B %Y` day format -/

theorem head?_append_left {a : PyStr} (b : PyStr) (h : a ≠ []) :
    (a ++ b).head? = a.head? := by
  cases a with
  | nil => exact absurd rfl h
  | cons x t => rfl

theorem getLast?_cons_ne {x : Char} {t : PyStr} (h : t ≠ []) :
    (x :: t).getLast? = t.getLast? := by
  cases t with
  | nil => exact absurd rfl h
  | cons y u => exact List.getLast?_cons_cons

theorem getLast?_append_right (a : PyStr) {b : PyStr} (h : b ≠ []) :
    (a ++ b).getLast? = b.getLast? := by
  induction a with
  | nil => rfl
  | cons x t ih =>
    rw [List.cons_append, getLast?_cons_ne, ih]
    intro he
    rcases List.append_eq_nil.mp he with ⟨_, h2⟩
    exact h h2

theorem head_digit_of_all_digit {l : PyStr} (hne : l ≠ [])
    (h : ∀ c ∈ l, c.isDigit = true) :
    ∃ c, l.head? = some c ∧ c.isDigit = true := by
  cases l with
  | nil => exact absurd rfl hne
  | cons x t => exact ⟨x, rfl, h x (List.mem_cons_self x t)⟩

theorem getLast_digit_of_all_digit {l : PyStr} (hne : l ≠ [])
    (h : ∀ c ∈ l, c.isDigit = true) :
    ∃ c, l.getLast? = some c ∧ c.isDigit = true := by
  induction l with
  | nil => exact absurd rfl hne
  | cons x t ih =>
    cases t with
    | nil => exact ⟨x, rfl, h x (List.mem_cons_self x [])⟩
    | cons y u =>
      obtain ⟨c, hc, hcd⟩ := ih (by simp) (fun c hc => h c (List.mem_cons_of_mem x hc))
      exact ⟨c, by rw [List.getLast?_cons_cons]; exact hc, hcd⟩

theorem takeDigits_exact {ds : PyStr} (rest : PyStr) (k : Nat)
    (hlen : ds.length = k) (hdig : ∀ c ∈ ds, c.isDigit = true) :
    takeDigits k (ds ++ rest) = some (digitsVal ds, rest) := by
  unfold takeDigits
  have htake : (ds ++ rest).take k = ds := by
    rw [← hlen]
    exact List.take_left ds rest
  have hdrop : (ds ++ rest).drop k = rest := by
    rw [← hlen]
    exact List.drop_left ds rest
  rw [htake, hdrop, if_pos ⟨hlen, List.all_eq_true.mpr hdig⟩]

theorem daysInMonth_le_31 (y m : Nat) : daysInMonth y m ≤ 31 := by
  unfold daysInMonth
  split_ifs <;> omega

theorem monthName_no_space {mo : Nat} (h1 : 1 ≤ mo) (h2 : mo ≤ 12) :
    ' ' ∉ monthName mo := by
  interval_cases mo <;> decide

theorem monthName_no_newline {mo : Nat} (h1 : 1 ≤ mo) (h2 : mo ≤ 12) :
    '\n' ∉ monthName mo := by
  interval_cases mo <;> decide

theorem monthNum_monthName {mo : Nat} (h1 : 1 ≤ mo) (h2 : mo ≤ 12) :
    monthNum (monthName mo) = some mo := by
  interval_cases mo <;> decide

theorem fromisoformat_valid {s : PyStr} {dt : PyDateTime}
    (h : fromisoformat s = some dt) : validDateTime dt := by
  unfold fromisoformat at h
  simp only [Option.bind_eq_bind, Option.bind_eq_some] at h
  obtain ⟨⟨y, r1⟩, _, h⟩ := h
  obtain ⟨r2, _, h⟩ := h
  obtain ⟨⟨mo, r3⟩, _, h⟩ := h
  obtain ⟨r4, _, h⟩ := h
  obtain ⟨⟨d, r5⟩, _, h⟩ := h
  obtain ⟨⟨hh, mi, sec, us⟩, _, h⟩ := h
  split at h
  · next hv =>
    injection h with h
    rw [← h]
    exact hv
  · exact absurd h (by simp)

theorem fromiso_iso_midnight (y mo d : Nat) (h : validDateTime ⟨y, mo, d, 0, 0, 0, 0⟩) :
    fromisoformat (isoformat ⟨y, mo, d, 0, 0, 0, 0⟩) = some ⟨y, mo, d, 0, 0, 0, 0⟩ := by
  have hfields : 1 ≤ y ∧ y ≤ 9999 ∧ 1 ≤ mo ∧ mo ≤ 12 ∧ 1 ≤ d ∧ d ≤ daysInMonth y mo := by
    obtain ⟨a1, a2, a3, a4, a5, a6, _⟩ := h
    exact ⟨a1, a2, a3, a4, a5, a6⟩
  have hy : y < 10000 := by omega
  have hmo : mo < 100 := by omega
  have hd : d < 100 := by
    have := daysInMonth_le_31 y mo
    omega
  have hiso : isoformat ⟨y, mo, d, 0, 0, 0, 0⟩ =
      fmt04n y ++ '-' :: (fmt02n mo ++ '-' :: (fmt02n d ++ 'T' :: ("00:00:00".toList))) := by
    show fmt04n y ++ '-' :: (fmt02n mo ++ '-' :: (fmt02n d ++ 'T' ::
      (fmt02n 0 ++ ':' :: (fmt02n 0 ++ ':' :: (fmt02n 0 ++ ([] : PyStr)))))) = _
    have h0 : fmt02n 0 ++ ':' :: (fmt02n 0 ++ ':' :: (fmt02n 0 ++ ([] : PyStr))) =
        "00:00:00".toList := by decide
    rw [h0]
  rw [hiso]
  unfold fromisoformat
  rw [takeDigits_exact _ 4 (fmt04n_length y hy) (fmt04n_all_digit y)]
  simp only [Option.bind_eq_bind, Option.some_bind]
  rw [show expectChar '-'
        ('-' :: (fmt02n mo ++ '-' :: (fmt02n d ++ 'T' :: ("00:00:00".toList)))) =
      some (fmt02n mo ++ '-' :: (fmt02n d ++ 'T' :: ("00:00:00".toList))) from by
    simp [expectChar]]
  simp only [Option.some_bind]
  rw [takeDigits_exact _ 2 (fmt02n_length mo hmo) (fmt02n_all_digit mo)]
  simp only [Option.some_bind]
  rw [show expectChar '-' ('-' :: (fmt02n d ++ 'T' :: ("00:00:00".toList))) =
      some (fmt02n d ++ 'T' :: ("00:00:00".toList)) from by simp [expectChar]]
  simp only [Option.some_bind]
  rw [takeDigits_exact _ 2 (fmt02n_length d hd) (fmt02n_all_digit d)]
  simp only [Option.some_bind]
  rw [show parseIsoTimePart ('T' :: ("00:00:00".toList)) = some (0, 0, 0, 0) from by decide]
  simp only [Option.some_bind]
  rw [digitsVal_fmt04n, digitsVal_fmt02n, digitsVal_fmt02n, if_pos h]

theorem pySplit_strftimeDMY (dt : PyDateTime) (h1 : 1 ≤ dt.month) (h2 : dt.month ≤ 12) :
    pySplit ' ' (strftimeDMY dt) = [fmt02n dt.day, monthName dt.month, fmt04n dt.year] := by
  unfold strftimeDMY
  rw [pySplit_sep _ (fun hmem =>
        absurd (fmt02n_all_digit _ _ hmem) (by decide)),
      pySplit_sep _ (monthName_no_space h1 h2),
      pySplit_no_sep (fun hmem =>
        absurd (fmt04n_all_digit _ _ hmem) (by decide))]

set_option maxHeartbeats 1600000 in
theorem strptime_strftime (dt : PyDateTime) (h : validDateTime dt) :
    strptimeDMY (strftimeDMY dt) = some ⟨dt.year, dt.month, dt.day, 0, 0, 0, 0⟩ := by
  obtain ⟨hy1, hy2, hm1, hm2, hd1, hd2, _⟩ := h
  have hd : dt.day < 100 := by
    have := daysInMonth_le_31 dt.year dt.month
    omega
  unfold strptimeDMY
  rw [pySplit_strftimeDMY dt hm1 hm2]
  show (if fmt02n dt.day ≠ [] ∧ (fmt02n dt.day).length ≤ 2 ∧
          (fmt02n dt.day).all Char.isDigit then
        match monthNum (monthName dt.month) with
        | some mo =>
          if fmt04n dt.year ≠ [] ∧ (fmt04n dt.year).length ≤ 4 ∧
             (fmt04n dt.year).all Char.isDigit then
            if validDateTime (PyDateTime.mk (digitsVal (fmt04n dt.year)) mo
                (digitsVal (fmt02n dt.day)) 0 0 0 0)
            then some (PyDateTime.mk (digitsVal (fmt04n dt.year)) mo
                (digitsVal (fmt02n dt.day)) 0 0 0 0) else none
          else none
        | none => none
       else none) = _
  rw [if_pos ⟨fmt02n_ne_nil _, by rw [fmt02n_length _ hd],
        List.all_eq_true.mpr (fmt02n_all_digit _)⟩,
      monthNum_monthName hm1 hm2]
  show (if fmt04n dt.year ≠ [] ∧ (fmt04n dt.year).length ≤ 4 ∧
          (fmt04n dt.year).all Char.isDigit then
        if validDateTime (PyDateTime.mk (digitsVal (fmt04n dt.year)) dt.month
            (digitsVal (fmt02n dt.day)) 0 0 0 0)
        then some (PyDateTime.mk (digitsVal (fmt04n dt.year)) dt.month
            (digitsVal (fmt02n dt.day)) 0 0 0 0) else none
       else none) = _
  rw [if_pos ⟨fmt04n_ne_nil _, by rw [fmt04n_length _ (by omega)],
        List.all_eq_true.mpr (fmt04n_all_digit _)⟩,
      digitsVal_fmt04n, digitsVal_fmt02n,
      if_pos (by exact ⟨hy1, hy2, hm1, hm2, hd1, hd2, Nat.zero_le _, Nat.zero_le _,
        Nat.zero_le _, Nat.zero_le _⟩)]

theorem strftimeDMY_ne_nil (dt : PyDateTime) : strftimeDMY dt ≠ [] := by
  unfold strftimeDMY
  intro he
  rcases List.append_eq_nil.mp he with ⟨h1, _⟩
  exact fmt02n_ne_nil _ h1

theorem pyStrip_strftimeDMY (dt : PyDateTime) : pyStrip (strftimeDMY dt) = strftimeDMY dt := by
  obtain ⟨c1, hc1, hd1⟩ := head_digit_of_all_digit (fmt02n_ne_nil dt.day) (fmt02n_all_digit dt.day)
  obtain ⟨c2, hc2, hd2⟩ := getLast_digit_of_all_digit (fmt04n_ne_nil dt.year) (fmt04n_all_digit dt.year)
  apply pyStrip_eq_self_of_ends (a := c1) (b := c2)
  · unfold strftimeDMY
    rw [head?_append_left _ (fmt02n_ne_nil _)]
    exact hc1
  · unfold strftimeDMY
    rw [getLast?_append_right _ (by simp), getLast?_cons_ne (by
      intro he
      rcases List.append_eq_nil.mp he with ⟨_, h2⟩
      simp at h2),
      getLast?_append_right _ (by simp),
      getLast?_cons_ne (fmt04n_ne_nil _)]
    exact hc2
  · exact not_space_of_digit hd1
  · exact not_space_of_digit hd2

theorem strftimeDMY_no_newline (dt : PyDateTime) (h1 : 1 ≤ dt.month) (h2 : dt.month ≤ 12) :
    '\n' ∉ strftimeDMY dt := by
  unfold strftimeDMY
  intro hmem
  rcases List.mem_append.mp hmem with hmem | hmem
  · exact absurd (fmt02n_all_digit _ _ hmem) (by decide)
  · rcases List.mem_cons.mp hmem with he | hmem
    · exact absurd he (by decide)
    · rcases List.mem_append.mp hmem with hmem | hmem
      · exact monthName_no_newline h1 h2 hmem
      · rcases List.mem_cons.mp hmem with he | hmem
        · exact absurd he (by decide)
        · exact absurd (fmt04n_all_digit _ _ hmem) (by decide)

/-! ## Lemmas: substring occurrence (`in`) across concatenations -/

theorem hasSub_nil_false {pat : PyStr} (h : pat ≠ []) : hasSub pat [] = false := by
  cases pat with
  | nil => exact absurd rfl h
  | cons p pt => rfl

theorem hasSub_cons_of_head_ne {p1 x : Char} {pt s : PyStr} (h : x ≠ p1) :
    hasSub (p1 :: pt) (x :: s) = hasSub (p1 :: pt) s := by
  show ((p1 :: pt).isPrefixOf (x :: s) || hasSub (p1 :: pt) s) = hasSub (p1 :: pt) s
  have hpx : (p1 == x) = false := beq_eq_false_iff_ne.mpr (Ne.symm h)
  show ((p1 == x) && pt.isPrefixOf s || hasSub (p1 :: pt) s) = hasSub (p1 :: pt) s
  rw [hpx, Bool.false_and, Bool.false_or]

theorem hasSub_of_head_not_mem {p1 : Char} {pt s : PyStr} (h : p1 ∉ s) :
    hasSub (p1 :: pt) s = false := by
  induction s with
  | nil => rfl
  | cons x rest ih =>
    have hx : x ≠ p1 := fun e => h (e ▸ List.mem_cons_self x rest)
    rw [hasSub_cons_of_head_ne hx, ih (fun hm => h (List.mem_cons_of_mem x hm))]

/-- A pattern absent from both halves of a concatenation is absent from the
whole provided no occurrence can straddle the seam: the first character of
the right half is not a character of the pattern's tail. -/
theorem hasSub_append {pat a b : PyStr}
    (ha : hasSub pat a = false) (hb : hasSub pat b = false)
    (hh : ∀ h, b.head? = some h → h ∉ pat.tail) :
    hasSub pat (a ++ b) = false := by
  induction a with
  | nil => exact hb
  | cons x a' ih =>
    have hstep : hasSub pat (x :: a') =
        (pat.isPrefixOf (x :: a') || hasSub pat a') := rfl
    rw [hstep, Bool.or_eq_false_iff] at ha
    rw [List.cons_append]
    have hstep2 : hasSub pat (x :: (a' ++ b)) =
        (pat.isPrefixOf (x :: (a' ++ b)) || hasSub pat (a' ++ b)) := rfl
    rw [hstep2, Bool.or_eq_false_iff]
    refine ⟨?_, ih ha.2⟩
    cases hp : pat.isPrefixOf (x :: (a' ++ b)) with
    | false => rfl
    | true =>
      exfalso
      have hpre : pat <+: (x :: a') ++ b := by
        rw [List.cons_append]
        exact List.isPrefixOf_iff_prefix.mp hp
      rcases List.prefix_or_prefix_of_prefix hpre (List.prefix_append (x :: a') b) with
        h1 | h2
      · have htr := List.isPrefixOf_iff_prefix.mpr h1
        rw [ha.1] at htr
        exact Bool.false_ne_true htr
      · obtain ⟨t, ht⟩ := h2
        cases t with
        | nil =>
          rw [List.append_nil] at ht
          rw [ht] at ha
          have htr := List.isPrefixOf_iff_prefix.mpr (List.prefix_refl pat)
          rw [ha.1] at htr
          exact Bool.false_ne_true htr
        | cons h0 t' =>
          have hbt : (h0 :: t') <+: b := by
            rw [← List.prefix_append_right_inj (x :: a'), ht]
            exact hpre
          obtain ⟨u, hu⟩ := hbt
          have hbh : b.head? = some h0 := by rw [← hu]; rfl
          apply hh h0 hbh
          rw [← ht, List.cons_append, List.tail_cons]
          exact List.mem_append_right a' (List.mem_cons_self h0 t')

/-- Every character of a valid duration text is a digit or the colon. -/
theorem validDuration_chars {t : PyStr} (h : validDuration t) :
    ∀ c ∈ t, c = ':' ∨ c.isDigit = true := by
  intro c hc
  have hmem : c ∈ joinSep ':' (pySplit ':' t) := by
    rw [joinSep_pySplit]; exact hc
  rcases mem_joinSep hmem with rfl | ⟨p, hp, hcp⟩
  · exact Or.inl rfl
  · exact Or.inr ((h.2 p hp).2 c hcp)

theorem pyIsdigit_chars {s : PyStr} (h : pyIsdigit s = true) :
    ∀ c ∈ s, c.isDigit = true := by
  intro c hc
  unfold pyIsdigit at h
  rw [Bool.and_eq_true] at h
  exact List.all_eq_true.mp h.2 c hc

/-! ## Lemmas: the shape of a saved table row -/

theorem pySplit_cons_self (c : Char) (s : PyStr) :
    pySplit c (c :: s) = [] :: pySplit c s := by
  show (match pySplit c s with
        | [] => [[]]
        | f :: fs => if c = c then [] :: f :: fs else (c :: f) :: fs) = [] :: pySplit c s
  rcases h : pySplit c s with _ | ⟨f, fs⟩
  · exact absurd h (pySplit_ne_nil c s)
  · simp

/-- `rowLine` with the separators regrouped around each `'|'`. -/
theorem rowLine_eq (e : WorkoutEntry) :
    rowLine e = '|' :: ((' ' :: e.exercise ++ [' ']) ++ '|' ::
      ((' ' :: e.time ++ [' ']) ++ '|' ::
        ((' ' :: e.bpm ++ [' ']) ++ '|' :: ([] : PyStr)))) := by
  show ((((('|' :: ' ' :: e.exercise) ++ [' ', '|', ' ']) ++ e.time) ++ [' ', '|', ' ']) ++
      e.bpm) ++ [' ', '|'] = _
  simp only [List.append_assoc, List.cons_append, List.nil_append, List.append_nil]

/-- `rowLine` split before the first field of the tail. -/
theorem rowLine_split (e : WorkoutEntry) :
    rowLine e = ('|' :: ' ' :: e.exercise) ++
      (' ' :: '|' :: ' ' :: (e.time ++ (' ' :: '|' :: ' ' ::
        (e.bpm ++ (' ' :: '|' :: ([] : PyStr)))))) := by
  show ((((('|' :: ' ' :: e.exercise) ++ [' ', '|', ' ']) ++ e.time) ++ [' ', '|', ' ']) ++
      e.bpm) ++ [' ', '|'] = _
  simp only [List.append_assoc, List.cons_append, List.nil_append, List.append_nil]

theorem pipe_not_mem_pad {s : PyStr} (h : '|' ∉ s) : '|' ∉ ' ' :: s ++ [' '] := by
  intro hm
  rcases List.mem_append.mp hm with h1 | h1
  · rcases List.mem_cons.mp h1 with h2 | h2
    · exact absurd h2 (by decide)
    · exact h h2
  · exact absurd (List.mem_singleton.mp h1) (by decide)

theorem pySplit_rowLine (e : WorkoutEntry) (hex : '|' ∉ e.exercise)
    (ht : '|' ∉ e.time) (hb : '|' ∉ e.bpm) :
    pySplit '|' (rowLine e) =
      [[], ' ' :: e.exercise ++ [' '], ' ' :: e.time ++ [' '],
       ' ' :: e.bpm ++ [' '], []] := by
  rw [rowLine_eq, pySplit_cons_self, pySplit_sep _ (pipe_not_mem_pad hex),
      pySplit_sep _ (pipe_not_mem_pad ht), pySplit_sep _ (pipe_not_mem_pad hb)]
  rfl

theorem mem_rowLine {c : Char} {e : WorkoutEntry} (h : c ∈ rowLine e) :
    c = '|' ∨ c = ' ' ∨ c ∈ e.exercise ∨ c ∈ e.time ∨ c ∈ e.bpm := by
  rw [rowLine_split] at h
  simp only [List.mem_append, List.mem_cons, List.not_mem_nil, or_false] at h
  tauto

theorem isPrefixOf_cons_ne {x y : Char} {xs ys : List Char} (h : x ≠ y) :
    (x :: xs).isPrefixOf (y :: ys) = false := by
  show ((x == y) && xs.isPrefixOf ys) = false
  rw [beq_eq_false_iff_ne.mpr h, Bool.false_and]

theorem header_prefix_rowLine (e : WorkoutEntry) :
    ("## ".toList).isPrefixOf (rowLine e) = false := by
  rw [rowLine_eq, show "## ".toList = '#' :: '#' :: ' ' :: [] from rfl]
  exact isPrefixOf_cons_ne (by decide)

theorem isPrefixOf_cons_cons (p y : Char) (ps ys : List Char) :
    (p :: ps).isPrefixOf (y :: ys) = ((p == y) && ps.isPrefixOf ys) := rfl

theorem isPrefixOf_nil_left (ys : List Char) :
    ([] : List Char).isPrefixOf ys = true := by
  cases ys <;> rfl

theorem pipe_prefix_rowLine (e : WorkoutEntry) :
    ("| ".toList).isPrefixOf (rowLine e) = true := by
  rw [rowLine_eq, show "| ".toList = ['|', ' '] from rfl]
  simp only [List.cons_append, List.append_assoc, isPrefixOf_cons_cons, isPrefixOf_nil_left]
  simp

theorem sep_prefix_rowLine (e : WorkoutEntry) (hne : e.exercise ≠ [])
    (hh : e.exercise.head? ≠ some '-') :
    ("| ---".toList).isPrefixOf (rowLine e) = false := by
  rw [rowLine_eq]
  cases hex : e.exercise with
  | nil => exact absurd hex hne
  | cons x xs =>
    rw [hex, List.head?_cons] at hh
    have hx : '-' ≠ x := fun he => hh (congrArg some he.symm)
    simp only [List.cons_append, List.append_assoc]
    rw [show "| ---".toList = '|' :: ' ' :: '-' :: '-' :: '-' :: [] from rfl]
    simp only [isPrefixOf_cons_cons]
    rw [beq_eq_false_iff_ne.mpr hx]
    simp

theorem hasSub_BPM_rowLine (e : WorkoutEntry)
    (hex : hasSub ("BPM".toList) e.exercise = false)
    (ht : ∀ c ∈ e.time, c = ':' ∨ c.isDigit = true)
    (hb : ∀ c ∈ e.bpm, c.isDigit = true) :
    hasSub ("BPM".toList) (rowLine e) = false := by
  have hBPM : "BPM".toList = 'B' :: 'P' :: 'M' :: [] := rfl
  rw [rowLine_split, hBPM]
  have hBt : 'B' ∉ e.time := by
    intro hm
    rcases ht 'B' hm with h1 | h1
    · exact absurd h1 (by decide)
    · exact absurd h1 (by decide)
  have hBb : 'B' ∉ e.bpm := fun hm => absurd (hb 'B' hm) (by decide)
  have hA : hasSub ('B' :: 'P' :: 'M' :: []) ('|' :: ' ' :: e.exercise) = false := by
    rw [hasSub_cons_of_head_ne (by decide), hasSub_cons_of_head_ne (by decide)]
    exact hBPM ▸ hex
  have hBno : 'B' ∉ (' ' :: '|' :: ' ' :: (e.time ++ (' ' :: '|' :: ' ' ::
      (e.bpm ++ (' ' :: '|' :: ([] : PyStr)))))) := by
    intro hm
    simp only [List.mem_cons, List.mem_append, List.not_mem_nil, or_false] at hm
    rcases hm with h | h | h | h | h | h | h | h | h | h
    · exact absurd h (by decide)
    · exact absurd h (by decide)
    · exact absurd h (by decide)
    · exact hBt h
    · exact absurd h (by decide)
    · exact absurd h (by decide)
    · exact absurd h (by decide)
    · exact hBb h
    · exact absurd h (by decide)
    · exact absurd h (by decide)
  refine hasSub_append hA (hasSub_of_head_not_mem hBno) ?_
  intro h hh
  have h' : ' ' = h := Option.some_inj.mp hh
  rw [← h']
  decide

/-- Stripping one padding space from each side of a token that neither
starts nor ends with whitespace. -/
theorem pyStrip_space_pad {s : PyStr} (hne : s ≠ [])
    (hh : ∀ c, s.head? = some c → pyIsSpace c = false)
    (hl : ∀ c, s.getLast? = some c → pyIsSpace c = false) :
    pyStrip (' ' :: s ++ [' ']) = s := by
  unfold pyStrip
  have h1 : (' ' :: s ++ [' ']).dropWhile pyIsSpace = s ++ [' '] := by
    rw [List.cons_append, List.dropWhile_cons,
        show pyIsSpace ' ' = true from by decide]
    simp only [if_true]
    cases hs : s with
    | nil => exact absurd hs hne
    | cons c t =>
      rw [List.cons_append, List.dropWhile_cons, hh c (by rw [hs, List.head?_cons])]
      simp
  have h2 : (s ++ [' ']).reverse.dropWhile pyIsSpace = s.reverse := by
    rw [List.reverse_append, show ([' '] : PyStr).reverse = [' '] from rfl,
        List.singleton_append, List.dropWhile_cons,
        show pyIsSpace ' ' = true from by decide]
    simp only [if_true]
    cases hrev : s.reverse with
    | nil => rfl
    | cons d t =>
      have hd : s.getLast? = some d := by
        rw [← List.head?_reverse, hrev, List.head?_cons]
      rw [List.dropWhile_cons, hl d hd]
      simp
  rw [h1, h2, List.reverse_reverse]

/-! ## Lemmas: grouping the log by day -/

/-- The loop body of `_group_data_by_days`, named for rewriting. -/
def groupStep (m : List (PyStr × List WorkoutEntry)) (e : WorkoutEntry) :
    List (PyStr × List WorkoutEntry) :=
  match fromisoformat e.timestamp with
  | some dt => groupInsert m (strftimeDMY dt) e
  | none => m

theorem group_data_eq_foldl (log : List WorkoutEntry) :
    _group_data_by_days log = log.foldl groupStep [] := rfl

theorem lookupDay_groupInsert_self (m : List (PyStr × List WorkoutEntry)) (k : PyStr)
    (e : WorkoutEntry) :
    lookupDay (groupInsert m k e) k = lookupDay m k ++ [e] := by
  induction m with
  | nil => simp [groupInsert, lookupDay]
  | cons p rest ih =>
    obtain ⟨k', es⟩ := p
    by_cases hk : k' = k
    · subst hk
      simp [groupInsert, lookupDay]
    · simp [groupInsert, lookupDay, hk, ih]

theorem lookupDay_groupInsert_other (m : List (PyStr × List WorkoutEntry))
    (k k' : PyStr) (e : WorkoutEntry) (h : k' ≠ k) :
    lookupDay (groupInsert m k e) k' = lookupDay m k' := by
  induction m with
  | nil => simp [groupInsert, lookupDay, Ne.symm h]
  | cons p rest ih =>
    obtain ⟨k2, es⟩ := p
    by_cases hk : k2 = k
    · subst hk
      simp [groupInsert, lookupDay, Ne.symm h]
    · simp [groupInsert, lookupDay, hk, ih]

theorem mem_keys_groupInsert (m : List (PyStr × List WorkoutEntry)) (k x : PyStr)
    (e : WorkoutEntry) :
    x ∈ (groupInsert m k e).map Prod.fst ↔ x ∈ m.map Prod.fst ∨ x = k := by
  induction m with
  | nil => simp [groupInsert]
  | cons p rest ih =>
    obtain ⟨k', es⟩ := p
    by_cases hk : k' = k
    · subst hk
      simp [groupInsert]
      tauto
    · simp [groupInsert, hk, ih]
      tauto

theorem lookupDay_foldl_groupStep (log : List WorkoutEntry) :
    ∀ m k, lookupDay (log.foldl groupStep m) k =
      lookupDay m k ++ log.filter (fun e => entryDay e == some k) := by
  induction log with
  | nil =>
    intro m k
    simp
  | cons e rest ih =>
    intro m k
    rw [List.foldl_cons, ih, List.filter_cons]
    cases hts : fromisoformat e.timestamp with
    | none =>
      have hstep : groupStep m e = m := by unfold groupStep; rw [hts]
      have hday : (entryDay e == some k) = false :=
        beq_eq_false_iff_ne.mpr (by simp [entryDay, hts])
      rw [hstep, hday]
      simp
    | some dt =>
      have hstep : groupStep m e = groupInsert m (strftimeDMY dt) e := by
        unfold groupStep; rw [hts]
      have hde : entryDay e = some (strftimeDMY dt) := by simp [entryDay, hts]
      rw [hstep]
      by_cases hk : strftimeDMY dt = k
      · subst hk
        rw [lookupDay_groupInsert_self, hde, beq_self_eq_true]
        simp
      · have hday : (entryDay e == some k) = false :=
          beq_eq_false_iff_ne.mpr (by rw [hde]; simp [hk])
        rw [lookupDay_groupInsert_other _ _ _ _ (Ne.symm hk), hday]
        simp

/-- The entries grouped under day key `k` are exactly the log entries whose
timestamp parses to that day, in log order. -/
theorem lookupDay_group (log : List WorkoutEntry) (k : PyStr) :
    lookupDay (_group_data_by_days log) k =
      log.filter (fun e => entryDay e == some k) := by
  rw [group_data_eq_foldl, lookupDay_foldl_groupStep]
  simp [lookupDay]

theorem mem_keys_foldl_groupStep (log : List WorkoutEntry) :
    ∀ m x, x ∈ (log.foldl groupStep m).map Prod.fst ↔
      x ∈ m.map Prod.fst ∨ ∃ e ∈ log, entryDay e = some x := by
  induction log with
  | nil =>
    intro m x
    simp
  | cons e rest ih =>
    intro m x
    rw [List.foldl_cons, ih]
    cases hts : fromisoformat e.timestamp with
    | none =>
      have hstep : groupStep m e = m := by unfold groupStep; rw [hts]
      have hno : entryDay e ≠ some x := by simp [entryDay, hts]
      rw [hstep]
      simp only [List.mem_cons]
      constructor
      · rintro (h | ⟨e', he', hd⟩)
        · exact Or.inl h
        · exact Or.inr ⟨e', Or.inr he', hd⟩
      · rintro (h | ⟨e', he', hd⟩)
        · exact Or.inl h
        · rcases he' with rfl | he'
          · exact absurd hd hno
          · exact Or.inr ⟨e', he', hd⟩
    | some dt =>
      have hstep : groupStep m e = groupInsert m (strftimeDMY dt) e := by
        unfold groupStep; rw [hts]
      have hde : entryDay e = some (strftimeDMY dt) := by simp [entryDay, hts]
      rw [hstep, mem_keys_groupInsert]
      simp only [List.mem_cons]
      constructor
      · rintro ((h | rfl) | ⟨e', he', hd⟩)
        · exact Or.inl h
        · exact Or.inr ⟨e, Or.inl rfl, hde⟩
        · exact Or.inr ⟨e', Or.inr he', hd⟩
      · rintro (h | ⟨e', he', hd⟩)
        · exact Or.inl (Or.inl h)
        · rcases he' with rfl | he'
          · rw [hde] at hd
            exact Or.inl (Or.inr (Option.some_inj.mp hd).symm)
          · exact Or.inr ⟨e', he', hd⟩

theorem mem_keys_group (log : List WorkoutEntry) (x : PyStr) :
    x ∈ (_group_data_by_days log).map Prod.fst ↔ ∃ e ∈ log, entryDay e = some x := by
  rw [group_data_eq_foldl, mem_keys_foldl_groupStep]
  simp

theorem mem_insertDateDesc (x a : PyStr) (l : List PyStr) :
    a ∈ insertDateDesc x l ↔ a ∈ l ∨ a = x := by
  induction l with
  | nil => simp [insertDateDesc]
  | cons y ys ih =>
    unfold insertDateDesc
    split
    · simp only [List.mem_cons]
      tauto
    · simp only [List.mem_cons, ih]
      tauto

theorem mem_sort_dates (dates : List PyStr) (x : PyStr) :
    x ∈ _sort_dates dates ↔ x ∈ dates := by
  unfold _sort_dates
  suffices h : ∀ acc, x ∈ dates.foldl (fun acc d => insertDateDesc d acc) acc ↔
      x ∈ acc ∨ x ∈ dates by
    rw [h []]
    simp
  induction dates with
  | nil =>
    intro acc
    simp
  | cons d ds ih =>
    intro acc
    rw [List.foldl_cons, ih, mem_insertDateDesc]
    simp only [List.mem_cons]
    tauto

/-! ## Lemmas: the saved file as a list of lines -/

theorem joinNL_cons (l : PyStr) (ls : List PyStr) :
    joinNL (l :: ls) = l ++ '\n' :: joinNL ls := by
  unfold joinNL
  simp

theorem joinNL_append (A B : List PyStr) : joinNL (A ++ B) = joinNL A ++ joinNL B := by
  unfold joinNL
  rw [List.map_append, List.flatten_append]

theorem dayBlock_eq_joinNL (days : List (PyStr × List WorkoutEntry)) (date : PyStr) :
    dayBlock days date = joinNL (blockLines days date) := by
  unfold dayBlock blockLines
  rw [joinNL_cons, joinNL_cons, joinNL_cons, joinNL_cons, joinNL_append,
      show ("\n\n".toList : PyStr) = ['\n', '\n'] from rfl]
  have hrows : joinNL ((lookupDay days date).map rowLine) =
      ((lookupDay days date).map (fun e => rowLine e ++ ['\n'])).flatten := by
    unfold joinNL
    rw [List.map_map]
    rfl
  rw [hrows]
  simp [joinNL]

theorem joinNL_flatten_blocks (days : List (PyStr × List WorkoutEntry))
    (dates : List PyStr) :
    joinNL ((dates.map (blockLines days)).flatten) =
      (dates.map (dayBlock days)).flatten := by
  induction dates with
  | nil => rfl
  | cons d ds ih =>
    simp only [List.map_cons, List.flatten_cons, joinNL_append, ih,
      dayBlock_eq_joinNL]

/-- The text `save_data` writes is its line list joined with newlines. -/
theorem save_data_eq_joinNL (log : List WorkoutEntry) :
    save_data log = joinNL (saveLines log) := by
  unfold save_data saveLines
  show ("# Guitar Exercises\n\n".toList ++
      if (_group_data_by_days log).isEmpty = true then
        "Workout history is empty.\n".toList
      else (List.map (dayBlock (_group_data_by_days log))
        (_sort_dates (List.map Prod.fst (_group_data_by_days log)))).flatten) = _
  by_cases h : (_group_data_by_days log).isEmpty
  · rw [if_pos h, if_pos h]
    decide
  · rw [if_neg h, if_neg h, joinNL_cons, joinNL_cons, joinNL_flatten_blocks]
    rfl

/-- Splitting newline-terminated lines back apart: Python's
`text.split('\n')` returns every line plus one final empty field. -/
theorem pySplit_joinNL (L : List PyStr) (h : ∀ l ∈ L, '\n' ∉ l) :
    pySplit '\n' (joinNL L) = L ++ [[]] := by
  induction L with
  | nil => rfl
  | cons l ls ih =>
    rw [joinNL_cons, pySplit_sep _ (h l (List.mem_cons_self l ls)),
        ih (fun x hx => h x (List.mem_cons_of_mem l hx))]
    rfl

/-! ## Lemmas: stepping `load_data`'s line loop -/

/-- The current-date register after the loop has consumed a list of lines. -/
def curAfter : Option PyStr → List PyStr → Option PyStr
  | cur, [] => cur
  | cur, line :: rest =>
    if ("## ".toList).isPrefixOf line then curAfter (some (pyStrip (line.drop 3))) rest
    else curAfter cur rest

/-- One step of the line loop, written out (definitional). -/
theorem load_lines_cons (now : PyStr) (cur : Option PyStr) (line : PyStr)
    (rest : List PyStr) :
    load_lines now cur (line :: rest) =
      if ("## ".toList).isPrefixOf line = true then
        load_lines now (some (pyStrip (line.drop 3))) rest
      else if ("| ".toList).isPrefixOf line = true ∧ isTruthy cur = true ∧
          ¬ ("| ---".toList).isPrefixOf line = true ∧
          hasSub ("BPM".toList) line = false then
        if 4 ≤ (pySplit '|' line).length then
          if pyStrip ((pySplit '|' line).getD 1 []) ≠ [] ∧
              (pyStrip ((pySplit '|' line).getD 1 [])).head? ≠ some '-' ∧
              pyStrip ((pySplit '|' line).getD 1 []) ≠ "Exercise Name".toList then
            ⟨pyStrip ((pySplit '|' line).getD 1 []),
             pyStrip ((pySplit '|' line).getD 2 []),
             pyStrip ((pySplit '|' line).getD 3 []),
             match cur.bind strptimeDMY with
             | some dt => isoformat dt
             | none => now⟩ :: load_lines now cur rest
          else load_lines now cur rest
        else load_lines now cur rest
      else load_lines now cur rest := rfl

theorem curAfter_cons (cur : Option PyStr) (line : PyStr) (rest : List PyStr) :
    curAfter cur (line :: rest) =
      if ("## ".toList).isPrefixOf line = true then
        curAfter (some (pyStrip (line.drop 3))) rest
      else curAfter cur rest := rfl

theorem load_lines_header (now : PyStr) (cur : Option PyStr) (line : PyStr)
    (rest : List PyStr) (h : ("## ".toList).isPrefixOf line = true) :
    load_lines now cur (line :: rest) =
      load_lines now (some (pyStrip (line.drop 3))) rest := by
  rw [load_lines_cons, if_pos h]

theorem curAfter_cons_no_header (cur : Option PyStr) (line : PyStr) (rest : List PyStr)
    (h : ¬ ("## ".toList).isPrefixOf line = true) :
    curAfter cur (line :: rest) = curAfter cur rest := by
  rw [curAfter_cons, if_neg h]

theorem curAfter_no_header {cur : Option PyStr} : ∀ {M : List PyStr},
    (∀ m ∈ M, ("## ".toList).isPrefixOf m = false) → curAfter cur M = cur := by
  intro M
  induction M with
  | nil => intro _; rfl
  | cons m M' ih =>
    intro hM
    rw [curAfter_cons_no_header _ _ _
        (by rw [hM m (List.mem_cons_self m M')]; exact Bool.false_ne_true)]
    exact ih (fun x hx => hM x (List.mem_cons_of_mem m hx))

/-- The line loop distributes over concatenation: the right half is
processed starting from whatever current date the left half leaves. -/
theorem load_lines_append (now : PyStr) (A : List PyStr) :
    ∀ (cur : Option PyStr) (B : List PyStr),
      load_lines now cur (A ++ B) =
        load_lines now cur A ++ load_lines now (curAfter cur A) B := by
  induction A with
  | nil =>
    intro cur B
    rfl
  | cons line A' ih =>
    intro cur B
    rw [List.cons_append, load_lines_cons, load_lines_cons, curAfter_cons]
    by_cases h1 : ("## ".toList).isPrefixOf line = true
    · rw [if_pos h1, if_pos h1, if_pos h1, ih]
    · rw [if_neg h1, if_neg h1, if_neg h1]
      split
      · split
        · split
          · simp only [List.cons_append, ih]
          · simp only [ih]
        · simp only [ih]
      · simp only [ih]

theorem mem_of_head?_eq {l : PyStr} {c : Char} (h : l.head? = some c) : c ∈ l := by
  cases l with
  | nil => cases h
  | cons x t =>
    rw [List.head?_cons, Option.some_inj] at h
    exact h ▸ List.mem_cons_self x t

theorem mem_of_getLast?_eq {l : PyStr} {c : Char} (h : l.getLast? = some c) : c ∈ l := by
  rw [← List.head?_reverse] at h
  exact List.mem_reverse.mp (mem_of_head?_eq h)

/-- A well-formed table row under a current date is accepted by the loop
and parsed back into its three stripped fields, timestamped at the parsed
day (or `now` when the day header failed to parse). -/
theorem load_lines_row (now d : PyStr) (S : List PyStr) (e : WorkoutEntry)
    (hd : d ≠ []) (hsafe : SafeExerciseName e.exercise)
    (ht : validDuration e.time) (hb : pyIsdigit e.bpm = true) :
    load_lines now (some d) (rowLine e :: S) =
      ⟨e.exercise, e.time, e.bpm,
       match strptimeDMY d with
       | some dt => isoformat dt
       | none => now⟩ :: load_lines now (some d) S := by
  obtain ⟨hex_ne, hex_hn, hex_ln, hex_head, hex_pipe, hex_nl, hex_bpm, hex_name⟩ := hsafe
  have htchars := validDuration_chars ht
  have htns : ∀ c ∈ e.time, pyIsSpace c = false := by
    intro c hc
    rcases htchars c hc with rfl | hdig
    · decide
    · exact not_space_of_digit hdig
  have htp : '|' ∉ e.time := by
    intro hm
    rcases htchars '|' hm with h1 | h1
    · exact absurd h1 (by decide)
    · exact absurd h1 (by decide)
  have hbchars := pyIsdigit_chars hb
  have hbp : '|' ∉ e.bpm := fun hm => absurd (hbchars '|' hm) (by decide)
  have htime_ne : e.time ≠ [] := by
    intro he
    rcases he ▸ ht.1 with h2 | h3
    · exact absurd h2 (by decide)
    · exact absurd h3 (by decide)
  have hbpm_ne : e.bpm ≠ [] := by
    intro he
    rw [pyIsdigit, he] at hb
    exact absurd hb (by decide)
  have hsplit := pySplit_rowLine e hex_pipe htp hbp
  have hstrip1 : pyStrip ((pySplit '|' (rowLine e)).getD 1 []) = e.exercise := by
    rw [hsplit]
    show pyStrip (' ' :: e.exercise ++ [' ']) = e.exercise
    exact pyStrip_space_pad hex_ne hex_hn hex_ln
  have hstrip2 : pyStrip ((pySplit '|' (rowLine e)).getD 2 []) = e.time := by
    rw [hsplit]
    show pyStrip (' ' :: e.time ++ [' ']) = e.time
    exact pyStrip_space_pad htime_ne
      (fun c hc => htns c (mem_of_head?_eq hc))
      (fun c hc => htns c (mem_of_getLast?_eq hc))
  have hstrip3 : pyStrip ((pySplit '|' (rowLine e)).getD 3 []) = e.bpm := by
    rw [hsplit]
    show pyStrip (' ' :: e.bpm ++ [' ']) = e.bpm
    exact pyStrip_space_pad hbpm_ne
      (fun c hc => not_space_of_digit (hbchars c (mem_of_head?_eq hc)))
      (fun c hc => not_space_of_digit (hbchars c (mem_of_getLast?_eq hc)))
  have htruthy : isTruthy (some d) = true := by
    cases d with
    | nil => exact absurd rfl hd
    | cons x t => rfl
  rw [load_lines_cons,
      if_neg (by rw [header_prefix_rowLine e]; exact Bool.false_ne_true),
      if_pos ⟨pipe_prefix_rowLine e, htruthy,
        by rw [sep_prefix_rowLine e hex_ne hex_head]; exact Bool.false_ne_true,
        hasSub_BPM_rowLine e hex_bpm htchars hbchars⟩,
      if_pos (by rw [hsplit]; simp),
      if_pos ⟨by rw [hstrip1]; exact hex_ne,
        by rw [hstrip1]; exact hex_head,
        by rw [hstrip1]; exact hex_name⟩,
      hstrip1, hstrip2, hstrip3]
  rfl

/-- Membership in the loaded log, extracted from any line list containing a
day header followed (with no intervening header) by a well-formed row. -/
theorem load_lines_extract (now : PyStr) (cur0 : Option PyStr) (P M S : List PyStr)
    (d : PyStr) (e : WorkoutEntry)
    (hM : ∀ m ∈ M, ("## ".toList).isPrefixOf m = false)
    (hstrip : pyStrip d = d) (hd : d ≠ [])
    (hsafe : SafeExerciseName e.exercise) (ht : validDuration e.time)
    (hb : pyIsdigit e.bpm = true) :
    (⟨e.exercise, e.time, e.bpm,
      match strptimeDMY d with
      | some dt => isoformat dt
      | none => now⟩ : WorkoutEntry) ∈
      load_lines now cur0 (P ++ ("## ".toList ++ d) :: (M ++ rowLine e :: S)) := by
  rw [load_lines_append]
  apply List.mem_append_right
  rw [load_lines_header _ _ _ _
      (List.isPrefixOf_iff_prefix.mpr (List.prefix_append _ _))]
  have hdrop : ("## ".toList ++ d).drop 3 = d := by
    rw [show (3 : Nat) = ("## ".toList).length from rfl]
    exact List.drop_left _ _
  rw [hdrop, hstrip, load_lines_append]
  apply List.mem_append_right
  rw [curAfter_no_header hM, load_lines_row now d S e hd hsafe ht hb]
  exact List.mem_cons_self _ _

theorem validDateTime_midnight {dt : PyDateTime} (h : validDateTime dt) :
    validDateTime ⟨dt.year, dt.month, dt.day, 0, 0, 0, 0⟩ := by
  obtain ⟨h1, h2, h3, h4, h5, h6, _⟩ := h
  exact ⟨h1, h2, h3, h4, h5, h6, Nat.zero_le _, Nat.zero_le _,
    Nat.zero_le _, Nat.zero_le _⟩

theorem strftimeDMY_midnight (dt : PyDateTime) :
    strftimeDMY ⟨dt.year, dt.month, dt.day, 0, 0, 0, 0⟩ = strftimeDMY dt := rfl

/-- A day key of the grouped log is the formatted day of some entry whose
timestamp parses. -/
theorem keys_are_days {log : List WorkoutEntry} {date : PyStr}
    (h : date ∈ (_group_data_by_days log).map Prod.fst) :
    ∃ e ∈ log, ∃ dt, fromisoformat e.timestamp = some dt ∧ strftimeDMY dt = date := by
  obtain ⟨e0, he0, hday0⟩ := (mem_keys_group log date).mp h
  unfold entryDay at hday0
  cases hts : fromisoformat e0.timestamp with
  | none =>
    rw [hts] at hday0
    cases hday0
  | some dt =>
    rw [hts] at hday0
    exact ⟨e0, he0, dt, hts, Option.some_inj.mp hday0⟩

/-- With every entry safe, no line of the saved file contains a newline. -/
theorem saveLines_no_newline (log : List WorkoutEntry)
    (hsafe : ∀ e ∈ log, SafeEntry e) :
    ∀ l ∈ saveLines log, '\n' ∉ l := by
  intro l hl
  unfold saveLines at hl
  rcases List.mem_cons.mp hl with rfl | hl
  · decide
  rcases List.mem_cons.mp hl with rfl | hl
  · decide
  by_cases hemp : (_group_data_by_days log).isEmpty
  · rw [if_pos hemp] at hl
    rw [List.mem_singleton.mp hl]
    decide
  · rw [if_neg hemp] at hl
    rcases List.mem_flatten.mp hl with ⟨blk, hblk, hlblk⟩
    rcases List.mem_map.mp hblk with ⟨date, hdate, rfl⟩
    have hdk : date ∈ (_group_data_by_days log).map Prod.fst :=
      (mem_sort_dates _ _).mp hdate
    obtain ⟨e0, he0, dt, hts, hdt⟩ := keys_are_days hdk
    have hvdt := fromisoformat_valid hts
    unfold blockLines at hlblk
    rcases List.mem_cons.mp hlblk with rfl | hlblk
    · intro hm
      rcases List.mem_append.mp hm with h1 | h1
      · exact absurd h1 (by decide)
      · rw [← hdt] at h1
        exact strftimeDMY_no_newline dt hvdt.2.2.1 hvdt.2.2.2.1 h1
    rcases List.mem_cons.mp hlblk with rfl | hlblk
    · decide
    rcases List.mem_cons.mp hlblk with rfl | hlblk
    · decide
    rcases List.mem_cons.mp hlblk with rfl | hlblk
    · decide
    rcases List.mem_append.mp hlblk with h1 | h1
    · rcases List.mem_map.mp h1 with ⟨e1, he1, rfl⟩
      have he1log : e1 ∈ log := by
        rw [lookupDay_group] at he1
        exact List.mem_of_mem_filter he1
      obtain ⟨hts1, ht1, hb1, hsafe1⟩ := hsafe e1 he1log
      intro hm
      rcases mem_rowLine hm with h | h | h | h | h
      · exact absurd h (by decide)
      · exact absurd h (by decide)
      · exact hsafe1.2.2.2.2.2.1 h
      · rcases validDuration_chars ht1 '\n' h with h2 | h2
        · exact absurd h2 (by decide)
        · exact absurd h2 (by decide)
      · exact absurd (pyIsdigit_chars hb1 '\n' h) (by decide)
    · rw [List.mem_singleton.mp h1]
      decide

/-- C2: for a log whose entries all have parseable ISO timestamps, valid
duration text and valid bpm tokens — and, as the correction requires, safe
exercise names (nonempty, no leading/trailing whitespace, not starting with
`'-'`, free of `'|'`, newline and the substring `"BPM"`, and distinct from
the column-header literal) — saving and reloading yields, for every
original entry, an entry equal on exercise name, duration text, bpm token
and calendar day of `created_at`. -/
theorem c2_roundtrip (log : List WorkoutEntry) (now_iso : PyStr)
    (hsafe : ∀ e ∈ log, SafeEntry e) (e : WorkoutEntry) (he : e ∈ log) :
    ∃ e2 ∈ load_data now_iso (save_data log),
      e2.exercise = e.exercise ∧ e2.time = e.time ∧ e2.bpm = e.bpm ∧
      entryDay e2 = entryDay e := by
  obtain ⟨hts_some, ht, hb, hsx⟩ := hsafe e he
  obtain ⟨dt, hts⟩ : ∃ dt, fromisoformat e.timestamp = some dt :=
    Option.isSome_iff_exists.mp hts_some
  have hvdt := fromisoformat_valid hts
  have hed : entryDay e = some (strftimeDMY dt) := by simp [entryDay, hts]
  have hkey : strftimeDMY dt ∈ (_group_data_by_days log).map Prod.fst :=
    (mem_keys_group log _).mpr ⟨e, he, hed⟩
  have hdate : strftimeDMY dt ∈ _sort_dates ((_group_data_by_days log).map Prod.fst) :=
    (mem_sort_dates _ _).mpr hkey
  obtain ⟨D1, D2, hD⟩ := List.append_of_mem hdate
  have hgrp : e ∈ lookupDay (_group_data_by_days log) (strftimeDMY dt) := by
    rw [lookupDay_group]
    exact List.mem_filter.mpr ⟨he, by rw [hed]; exact beq_self_eq_true _⟩
  obtain ⟨G1, G2, hG⟩ := List.append_of_mem hgrp
  have hemp : (_group_data_by_days log).isEmpty = false := by
    cases hgd : _group_data_by_days log with
    | nil =>
      rw [hgd] at hkey
      cases hkey
    | cons a r => rfl
  have hload : load_data now_iso (save_data log) =
      load_lines now_iso none (saveLines log ++ [[]]) := by
    unfold load_data
    rw [save_data_eq_joinNL, pySplit_joinNL _ (saveLines_no_newline log hsafe)]
  have hsl : saveLines log ++ [[]] =
      ("# Guitar Exercises".toList :: [] ::
        (D1.map (blockLines (_group_data_by_days log))).flatten) ++
      ("## ".toList ++ strftimeDMY dt) ::
      (([] :: tableHeaderLine :: tableSepLine :: G1.map rowLine) ++
        rowLine e :: (G2.map rowLine ++ [[]] ++
          ((D2.map (blockLines (_group_data_by_days log))).flatten ++ [[]]))) := by
    unfold saveLines
    rw [if_neg (by rw [hemp]; exact Bool.false_ne_true), hD,
        List.map_append, List.flatten_append, List.map_cons, List.flatten_cons]
    unfold blockLines
    rw [hG, List.map_append, List.map_cons]
    simp [List.append_assoc]
  rw [hload, hsl]
  refine ⟨⟨e.exercise, e.time, e.bpm,
      match strptimeDMY (strftimeDMY dt) with
      | some dt2 => isoformat dt2
      | none => now_iso⟩, ?_, rfl, rfl, rfl, ?_⟩
  · apply load_lines_extract
    · intro m hm
      rcases List.mem_cons.mp hm with rfl | hm
      · decide
      rcases List.mem_cons.mp hm with rfl | hm
      · decide
      rcases List.mem_cons.mp hm with rfl | hm
      · decide
      rcases List.mem_map.mp hm with ⟨e1, he1, rfl⟩
      exact header_prefix_rowLine e1
    · exact pyStrip_strftimeDMY dt
    · exact strftimeDMY_ne_nil dt
    · exact hsx
    · exact ht
    · exact hb
  · rw [strptime_strftime dt hvdt]
    show entryDay ⟨e.exercise, e.time, e.bpm,
      isoformat ⟨dt.year, dt.month, dt.day, 0, 0, 0, 0⟩⟩ = entryDay e
    unfold entryDay
    rw [hts]
    show (fromisoformat (isoformat ⟨dt.year, dt.month, dt.day, 0, 0, 0, 0⟩)).map
        strftimeDMY = (some dt).map strftimeDMY
    rw [fromiso_iso_midnight dt.year dt.month dt.day (validDateTime_midnight hvdt)]
    show some (strftimeDMY ⟨dt.year, dt.month, dt.day, 0, 0, 0, 0⟩) =
      some (strftimeDMY dt)
    rw [strftimeDMY_midnight]

/-- A log meeting only the claim's original hypotheses, whose single entry
is dropped by the round trip: its exercise name contains `"BPM"`, so the
loader filters its row out. -/
def c2BadLog : List WorkoutEntry :=
  [⟨"BPM".toList, "00:04".toList, "80".toList, "2023-01-02T03:04:05".toList⟩]

/-- C2 counterexample: the entry of `c2BadLog` has a parseable ISO
timestamp, valid duration text and a valid bpm token, yet loading the saved
file yields the empty log, so no entry matching it survives. -/
theorem c2_counterexample :
    (∀ e ∈ c2BadLog, (fromisoformat e.timestamp).isSome = true ∧
      validDuration e.time ∧ pyIsdigit e.bpm = true) ∧
    load_data ("2024-05-06T07:08:09".toList) (save_data c2BadLog) = [] := by
  constructor
  · decide
  · rfl

/-- A one-entry log satisfying the corrected round-trip hypotheses. -/
def c2DemoLog : List WorkoutEntry :=
  [⟨"Scales".toList, "00:04".toList, "80".toList, "2023-01-02T03:04:05".toList⟩]

/-- C2 witness: the corrected round trip instantiated on `c2DemoLog`. -/
theorem c2_witness :
    (∀ e ∈ c2DemoLog, SafeEntry e) ∧
    ∃ e2 ∈ load_data ("2024-05-06T07:08:09".toList) (save_data c2DemoLog),
      e2.exercise = "Scales".toList ∧ e2.time = "00:04".toList ∧
      e2.bpm = "80".toList ∧
      entryDay e2 = entryDay ⟨"Scales".toList, "00:04".toList, "80".toList,
        "2023-01-02T03:04:05".toList⟩ := by
  refine ⟨by decide, ?_⟩
  exact c2_roundtrip c2DemoLog ("2024-05-06T07:08:09".toList) (by decide)
    ⟨"Scales".toList, "00:04".toList, "80".toList, "2023-01-02T03:04:05".toList⟩
    (by decide)

end GuitarTrainer
